import Mathlib

/-! chaakoo: configuration validation and per-window planning

A shallow embedding of `config.go` (package `chaakoo`).

Modelling conventions

* The sessions and windows of a configuration live in a `Memory`; a pointer
  `*Session` or `*Window` is an `Option Addr`, `none` for the nil pointer and
  `some a` for the object at address `a`. A slice of pointers is a list of
  such options, so several slots may hold the same pointer. A pointer that is
  only read through and whose target is never written (`*Config`, `*Pane`,
  `*Command`) is an `Option` of the value it points to.
* A Go `string` is a Lean `String` (well-formed UTF-8 text); `len(s)` is the
  number of bytes, `String.utf8ByteSize`.
* A Go `error` is an `Option GoError`; `none` is the nil error.
* A method that reads a field through a nil pointer panics; such a run ends
  in `Outcome.nilDeref`.
* `Window.Parse`, which assigns through its receiver, returns the receiver's
  new value next to its result; its caller stores that value back at the
  receiver's address.
-/

set_option autoImplicit false

namespace Chaakoo

/-! ## Errors -/

/-- Modelled from the spec: the kinds of failure that the planning functions,
which are defined outside `config.go`, report (sections 6 and 7). -/
inductive PlanError where
  | MalformedGrid
  | NonRectangularPane (label : Char)
  | UnsliceablePartition
  deriving DecidableEq, Repr

/-- Go error values: `errorString` is what `errors.New` (and `fmt.Errorf`
without `%w`) builds, `wrapError` is what `fmt.Errorf` with one `%w` builds,
`planError` is an error value of one of the planning kinds. -/
inductive GoError where
  | errorString (s : String)
  | wrapError (msg : String) (err : GoError)
  | planError (kind : PlanError)
  deriving DecidableEq, Repr

/-- Modelled from the spec: the message of a planning failure. The spec fixes
the kinds and asks for the label in the message; it does not fix the wording. -/
def PlanError.Error : PlanError → String
  | .MalformedGrid => "malformed grid"
  | .NonRectangularPane label => "non-rectangular pane " ++ String.singleton label
  | .UnsliceablePartition => "unsliceable partition"

/-- The `Error()` method: the message of an error value. -/
def GoError.Error : GoError → String
  | .errorString s => s
  | .wrapError msg _ => msg
  | .planError kind => kind.Error

/-- The `Unwrap()` step of `errors.Unwrap`: the wrapped error, if any. -/
def GoError.Unwrap : GoError → Option GoError
  | .wrapError _ err => some err
  | _ => none

/-- Outcome of a method run: it returns a value, or panics on a nil pointer
dereference. -/
inductive Outcome (α : Type) where
  | returned (a : α)
  | nilDeref
  deriving DecidableEq, Repr

/-! ## Strings -/

/-- Go's `unicode.IsSpace`: the Latin-1 spaces, then the other code points of
the Unicode `White_Space` property. -/
def unicodeIsSpace (r : Char) : Bool :=
  let n := r.toNat
  if n ≤ 0xFF then
    n == 0x09 || n == 0x0A || n == 0x0B || n == 0x0C || n == 0x0D || n == 0x20
      || n == 0x85 || n == 0xA0
  else
    n == 0x1680 || (0x2000 ≤ n && n ≤ 0x200A) || n == 0x2028 || n == 0x2029
      || n == 0x202F || n == 0x205F || n == 0x3000

/-- Drop the leading white space of a character list. -/
def trimLeft : List Char → List Char
  | [] => []
  | c :: cs => if unicodeIsSpace c then trimLeft cs else c :: cs

/-- Drop the trailing white space of a character list. -/
def trimRight (cs : List Char) : List Char :=
  (trimLeft cs.reverse).reverse

/-- Go's `strings.TrimSpace`: the string without leading and trailing white
space. -/
def stringsTrimSpace (s : String) : String :=
  String.mk (trimRight (trimLeft s.data))

/-- Go's builtin `len` on a string: its length in bytes. -/
def len (s : String) : Nat := s.utf8ByteSize

/-! ## Pane graph (type only) -/

/-- Modelled from the spec: the direction of a split (section 3). A `vertical` split cuts along a column line (first
child left, second child right), a `horizontal` one along a row line (first
child on top). -/
inductive Direction where
  | horizontal
  | vertical
  deriving DecidableEq, Repr

/-- Modelled from the spec: the `Pane` type (`SplitNode`, section 3), whose
declaration is not in `config.go`. A pane is a leaf that carries a label, or
a split with a direction, the absolute size of its first child along the cut
axis, and two children. -/
inductive Pane where
  | leaf (label : Char)
  | split (direction : Direction) (size : Nat) (first second : Pane)
  deriving DecidableEq, Repr

/-- A matrix of labels, row by row. -/
abbrev Matrix := List (List Char)

/-! ## The configuration types of `config.go` -/

/-- One command fragment of a pane. -/
structure Command where
  Name : String
  CommandText : String
  WorkingDirectory : String
  deriving DecidableEq, Repr

/-- One TMUX window of the configuration. -/
structure Window where
  Name : String
  Grid : String
  FirstPane : Option Pane
  Commands : List (Option Command)
  deriving DecidableEq, Repr

/-- An address of an object in memory. -/
abbrev Addr := Nat

/-- One TMUX session of the configuration; `Windows` is a slice of window
pointers. -/
structure Session where
  Name : String
  Windows : List (Option Addr)
  deriving DecidableEq, Repr

/-- The whole configuration; `Sessions` is a slice of session pointers. -/
structure Config where
  Sessions : List (Option Addr)
  DryRun : Bool
  ExitOnError : Bool
  deriving DecidableEq, Repr

/-- The session and window objects that pointers point to, by address. -/
structure Memory where
  sessions : Addr → Session
  windows : Addr → Window

/-- The window a window pointer points to; `none` for the nil pointer. -/
def Memory.window (mem : Memory) (p : Option Addr) : Option Window :=
  p.map mem.windows

/-- Store back the value of a receiver after a method call on the window
pointer `p`: the memory where the window at that address is `w`. Nothing is
stored through a nil pointer. -/
def Memory.store (mem : Memory) (p : Option Addr) (w : Option Window) : Memory :=
  match p, w with
  | some a, some win =>
    { mem with windows := fun b => if b = a then win else mem.windows b }
  | _, _ => mem

/-! ## Validation -/

/-- `func (w *Window) Validate() error`. -/
def Window.Validate (w : Option Window) : Option GoError :=
  match w with
  | none => some (.errorString "window is nil")
  | some win =>
    if len win.Name == 0 then
      some (.errorString "window name is required")
    else if len (stringsTrimSpace win.Grid) == 0 then
      some (.errorString ("grid for window, " ++ win.Name ++ ", is empty"))
    else
      none

/-- The inner loop of `Config.Validate`: `for _, window := range
session.Windows`, returning the first error. -/
def validateWindows (mem : Memory) : List (Option Addr) → Option GoError
  | [] => none
  | w :: ws =>
    match Window.Validate (mem.window w) with
    | some err => some err
    | none => validateWindows mem ws

/-- The outer loop of `Config.Validate`: `for _, session := range
c.Sessions`. Reading `session.Name` of a nil session panics. -/
def validateSessions (mem : Memory) : List (Option Addr) → Outcome (Option GoError)
  | [] => .returned none
  | none :: _ => .nilDeref
  | some session :: rest =>
    if len (mem.sessions session).Name == 0 then
      .returned (some (.errorString "session name is required"))
    else if (mem.sessions session).Windows.length == 0 then
      .returned (some (.errorString
        ("atleast 1 window is required for session - " ++ (mem.sessions session).Name)))
    else
      match validateWindows mem (mem.sessions session).Windows with
      | some err => .returned (some err)
      | none => validateSessions mem rest

/-- `func (c *Config) Validate() error`. -/
def Config.Validate (mem : Memory) (c : Option Config) : Outcome (Option GoError) :=
  match c with
  | none => .returned (some (.errorString "config is nil"))
  | some cfg =>
    if cfg.Sessions.length == 0 then
      .returned (some (.errorString "at least one session is required"))
    else
      validateSessions mem cfg.Sessions

/-! ## Parsing -/

section Parse

variable (PrepareGrid : String → Matrix × Option GoError)
variable (PrepareGraph : Matrix → Option Pane × Option GoError)

/-- `func (w *Window) Parse() error`, over the two planning functions it
calls. The first component is the receiver after the call. -/
def Window.Parse (w : Option Window) : Option Window × Option GoError :=
  match w with
  | none => (none, some (.errorString "window is nil"))
  | some win =>
    match PrepareGrid win.Grid with
    | (_, some err) => (some win, some err)
    | (grid, none) =>
      match PrepareGraph grid with
      | (_, some err) => (some win, some err)
      | (pane, none) => (some { win with FirstPane := pane }, none)

/-- The inner loop of `Config.Parse`: `for _, window := range
session.Windows`. `window.Parse()` works on the window that `window` points
to, and what it assigns is stored at that address. On an error the message
is built from `window.Name`, which panics when the window is nil. -/
def parseWindows (mem : Memory) :
    List (Option Addr) → Memory × Outcome (Option GoError)
  | [] => (mem, .returned none)
  | w :: ws =>
    match Window.Parse PrepareGrid PrepareGraph (mem.window w) with
    | (w1, some err) =>
      match (mem.store w w1).window w with
      | none => (mem.store w w1, .nilDeref)
      | some win =>
        (mem.store w w1, .returned (some (.wrapError
          ("unable to parse grid for window - " ++ win.Name ++ ": " ++ err.Error) err)))
    | (w1, none) => parseWindows (mem.store w w1) ws

/-- The outer loop of `Config.Parse`: `for _, session := range c.Sessions`.
Reading `session.Windows` of a nil session panics. -/
def parseSessions (mem : Memory) :
    List (Option Addr) → Memory × Outcome (Option GoError)
  | [] => (mem, .returned none)
  | none :: _ => (mem, .nilDeref)
  | some session :: rest =>
    match parseWindows PrepareGrid PrepareGraph mem (mem.sessions session).Windows with
    | (mem1, .returned none) => parseSessions mem1 rest
    | (mem1, r) => (mem1, r)

/-- `func (c *Config) Parse() error`. The first component is the memory
after the call; reading `c.Sessions` of a nil config panics. -/
def Config.Parse (mem : Memory) (c : Option Config) : Memory × Outcome (Option GoError) :=
  match c with
  | none => (mem, .nilDeref)
  | some cfg => parseSessions PrepareGrid PrepareGraph mem cfg.Sessions

end Parse

/-! ## Vocabulary of the statements -/

/-- A text with at least one character that is not white space. -/
def HasNonSpace (s : String) : Prop := ∃ c ∈ s.data, unicodeIsSpace c = false

/-- A window slot that passes validation: non-nil, named, with a grid that is
not blank. -/
def WindowOk (w : Option Window) : Prop :=
  ∃ win, w = some win ∧ win.Name ≠ "" ∧ HasNonSpace win.Grid

/-- A session slot that passes validation: non-nil, and the session it points
to is named and has at least one window slot, all of them passing. -/
def SessionOk (mem : Memory) (s : Option Addr) : Prop :=
  ∃ a, s = some a ∧ (mem.sessions a).Name ≠ "" ∧ (mem.sessions a).Windows ≠ [] ∧
    ∀ w ∈ (mem.sessions a).Windows, WindowOk (mem.window w)

/-- What the body of the session loop of `Config.Validate` decides for one
non-nil session: the error it returns with, or `none` when the loop goes on
to the next session. -/
def sessionVerdict (mem : Memory) (ses : Session) : Option GoError :=
  if ses.Name = "" then some (.errorString "session name is required")
  else if ses.Windows = [] then
    some (.errorString ("atleast 1 window is required for session - " ++ ses.Name))
  else validateWindows mem ses.Windows

/-- All window slots of a list of session slots, sessions in order and
windows in order within a session (a nil session holds none). -/
def allWindows (mem : Memory) : List (Option Addr) → List (Option Addr)
  | [] => []
  | none :: rest => allWindows mem rest
  | some a :: rest => (mem.sessions a).Windows ++ allWindows mem rest

/-- The error `Config.Parse` builds around the error `err` of window `win`:
`fmt.Errorf("unable to parse grid for window - %s: %w", window.Name, err)`. -/
def parseError (win : Window) (err : GoError) : GoError :=
  .wrapError ("unable to parse grid for window - " ++ win.Name ++ ": " ++ err.Error) err

/-- The window `win` after a successful `Window.Parse` over the planning
functions `pg` and `pgr`: its `FirstPane` is the pane planned for its grid. -/
def parsedWindow (pg : String → Matrix × Option GoError)
    (pgr : Matrix → Option Pane × Option GoError) (win : Window) : Window :=
  { win with FirstPane := (pgr (pg win.Grid).1).1 }

/-- The text `s` contains the text `sub` as a contiguous piece. -/
def Contains (s sub : String) : Prop :=
  ∃ front back : List Char, s.data = front ++ sub.data ++ back

/-! ## The planning functions

`PrepareGrid`, `PrepareGraph` and the types they work on are defined outside
`config.go`. The definitions of this part follow sections 3 and 4 of the
design document. -/

/-- Modelled from the spec: a `Region` (section 3), a rectangle of cells with
half-open bounds: rows `rowStart ≤ r < rowEnd`, columns
`colStart ≤ c < colEnd`. -/
structure Region where
  rowStart : Nat
  rowEnd : Nat
  colStart : Nat
  colEnd : Nat
  deriving DecidableEq, Repr

/-- Whether the cell at row `r`, column `c` lies in the region. -/
def Region.contains (b : Region) (r c : Nat) : Bool :=
  decide (b.rowStart ≤ r) && decide (r < b.rowEnd) &&
    decide (b.colStart ≤ c) && decide (c < b.colEnd)

/-- Split a text into its lines at every line feed. -/
def splitLines : List Char → List (List Char)
  | [] => [[]]
  | c :: cs =>
    if c = '\n' then [] :: splitLines cs
    else
      match splitLines cs with
      | [] => [[c]]
      | l :: ls => (c :: l) :: ls

/-- Modelled from the spec: `PrepareGrid`, called by `Window.Parse` and
defined outside `config.go`, is the GridParser of section 4.1. It trims the
grid text, splits it into lines, fails with `MalformedGrid` when no line
remains or when the lines differ in length, and otherwise gives the matrix of
the characters. -/
def PrepareGrid (text : String) : Matrix × Option GoError :=
  let trimmed := (stringsTrimSpace text).data
  if trimmed = [] then
    ([], some (.planError .MalformedGrid))
  else
    match splitLines trimmed with
    | [] => ([], some (.planError .MalformedGrid))
    | first :: rest =>
      if rest.all (fun l => l.length == first.length) then
        (first :: rest, none)
      else
        ([], some (.planError .MalformedGrid))

/-- The cells of a matrix with their positions: `(row, column, label)`, row
by row. -/
def matrixCells (m : Matrix) : List (Nat × Nat × Char) :=
  m.enum.flatMap (fun row => row.2.enum.map (fun cell => (row.1, cell.1, cell.2)))

/-- The distinct elements of a list, in order of first appearance. -/
def distinct : List Char → List Char
  | [] => []
  | c :: cs => c :: (distinct cs).filter (fun d => d != c)

/-- The smallest region that holds both the region `b` (if any) and the cell
`(r, c)`. -/
def Region.extend (b : Option Region) (r c : Nat) : Region :=
  match b with
  | none => ⟨r, r + 1, c, c + 1⟩
  | some b => ⟨min b.rowStart r, max b.rowEnd (r + 1), min b.colStart c, max b.colEnd (c + 1)⟩

/-- The minimal bounding box of the cells that bear `label`; `none` when no
cell does. -/
def boundingBox (label : Char) : List (Nat × Nat × Char) → Option Region
  | [] => none
  | cell :: rest =>
    if cell.2.2 = label then some (Region.extend (boundingBox label rest) cell.1 cell.2.1)
    else boundingBox label rest

/-- Modelled from the spec: the RectangleValidator of section 4.2, part of
what `PrepareGraph` does. For each label in turn it computes the bounding box
of the label and checks that every cell inside the box bears that label; the
first label that fails gives `NonRectangularPane`. The result maps each label
to its region. -/
def labelRegions (cells : List (Nat × Nat × Char)) :
    List Char → Except PlanError (List (Char × Region))
  | [] => .ok []
  | label :: rest =>
    match boundingBox label cells with
    | none => .error (.NonRectangularPane label)
    | some b =>
      if cells.all (fun cell => !b.contains cell.1 cell.2.1 || cell.2.2 == label) then
        match labelRegions cells rest with
        | .ok regions => .ok ((label, b) :: regions)
        | .error e => .error e
      else .error (.NonRectangularPane label)

/-- The first position `p` with `lo < p < hi` at which `ok` holds. -/
def findCut (lo hi : Nat) (ok : Nat → Bool) : Option Nat :=
  (List.range' (lo + 1) (hi - lo - 1)).find? ok

/-- No label region straddles the column line `p`. -/
def columnCutOk (labels : List (Char × Region)) (p : Nat) : Bool :=
  labels.all (fun e => decide (e.2.colEnd ≤ p) || decide (p ≤ e.2.colStart))

/-- No label region straddles the row line `p`. -/
def rowCutOk (labels : List (Char × Region)) (p : Nat) : Bool :=
  labels.all (fun e => decide (e.2.rowEnd ≤ p) || decide (p ≤ e.2.rowStart))

/-- Modelled from the spec: the SplitPlanner of section 4.3, part of what
`PrepareGraph` does. On a working region with the labels it holds: one label
gives a leaf; otherwise the first full cut is taken, column lines in
increasing order before row lines in increasing order, and both sides are
planned in turn; no full cut gives `UnsliceablePartition`. The recursion is
driven by `fuel`; `none` means the fuel ran out. -/
def plan : Nat → Region → List (Char × Region) → Option (Except PlanError Pane)
  | 0, _, _ => none
  | fuel + 1, R, labels =>
    match labels with
    | [e] => some (.ok (.leaf e.1))
    | _ =>
      match findCut R.colStart R.colEnd (columnCutOk labels) with
      | some p =>
        match plan fuel { R with colEnd := p } (labels.filter (fun e => decide (e.2.colEnd ≤ p))) with
        | none => none
        | some (.error e) => some (.error e)
        | some (.ok first) =>
          match plan fuel { R with colStart := p }
              (labels.filter (fun e => decide (p ≤ e.2.colStart))) with
          | none => none
          | some (.error e) => some (.error e)
          | some (.ok second) => some (.ok (.split .vertical (p - R.colStart) first second))
      | none =>
        match findCut R.rowStart R.rowEnd (rowCutOk labels) with
        | some p =>
          match plan fuel { R with rowEnd := p }
              (labels.filter (fun e => decide (e.2.rowEnd ≤ p))) with
          | none => none
          | some (.error e) => some (.error e)
          | some (.ok first) =>
            match plan fuel { R with rowStart := p }
                (labels.filter (fun e => decide (p ≤ e.2.rowStart))) with
            | none => none
            | some (.error e) => some (.error e)
            | some (.ok second) => some (.ok (.split .horizontal (p - R.rowStart) first second))
        | none => some (.error .UnsliceablePartition)

/-- The region of a whole matrix: all its rows, and the columns of its first
row. -/
def wholeRegion (m : Matrix) : Region :=
  ⟨0, m.length, 0, (m.headD []).length⟩

/-- Modelled from the spec: `PrepareGraph`, called by `Window.Parse` and
defined outside `config.go`, is the RectangleValidator followed by the
SplitPlanner on the whole matrix (sections 4.2 and 4.3); the pane graph is
the root of the split tree. The planner is given more fuel than the height
and width of the matrix together, which it never uses up. -/
def PrepareGraph (m : Matrix) : Option Pane × Option GoError :=
  let cells := matrixCells m
  match labelRegions cells (distinct (cells.map (fun cell => cell.2.2))) with
  | .error e => (none, some (.planError e))
  | .ok regions =>
    match plan (m.length + (m.headD []).length + 1) (wholeRegion m) regions with
    | some (.ok pane) => (some pane, none)
    | some (.error e) => (none, some (.planError e))
    | none => (none, some (.planError .UnsliceablePartition))

/-- The leaves of a pane graph laid out on a region, each with the region it
takes: the splits are replayed from the region of the root. -/
def Pane.leaves : Pane → Region → List (Char × Region)
  | .leaf label, R => [(label, R)]
  | .split .vertical size first second, R =>
    first.leaves { R with colEnd := R.colStart + size } ++
      second.leaves { R with colStart := R.colStart + size }
  | .split .horizontal size first second, R =>
    first.leaves { R with rowEnd := R.rowStart + size } ++
      second.leaves { R with rowStart := R.rowStart + size }

/-- The label of the matrix at row `r`, column `c`, when there is such a
cell. -/
def labelAt (m : Matrix) (r c : Nat) : Option Char :=
  match m[r]? with
  | none => none
  | some row => row[c]?

/-- The labelled regions `L` tile the region `R` of the matrix `m` exactly:
each of them lies inside `R`, and every cell of `R` is a cell of the matrix
that exactly one of them covers, which carries the label of the cell. -/
def TilesExactly (m : Matrix) (R : Region) (L : List (Char × Region)) : Prop :=
  (∀ e ∈ L, R.rowStart ≤ e.2.rowStart ∧ e.2.rowEnd ≤ R.rowEnd ∧
      R.colStart ≤ e.2.colStart ∧ e.2.colEnd ≤ R.colEnd) ∧
    ∀ r c, R.contains r c = true →
      ∃ ch, labelAt m r c = some ch ∧
        (L.filter (fun e => e.2.contains r c)).map (fun e => e.1) = [ch]

/-- The matrix has `nr` rows of `nc` cells each. -/
def IsRect (m : Matrix) (nr nc : Nat) : Prop :=
  m.length = nr ∧ ∀ row ∈ m, row.length = nc

/-! ## Lemmas on strings -/

theorem utf8ByteSize_go_pos (c : Char) (cs : List Char) : 0 < String.utf8ByteSize.go (c :: cs) := by
  have := Char.utf8Size_pos c
  simp only [String.utf8ByteSize.go]
  omega

theorem len_eq_zero_iff (s : String) : len s = 0 ↔ s = "" := by
  constructor
  · intro h
    rcases s with ⟨cs⟩
    cases cs with
    | nil => rfl
    | cons c cs =>
      have := utf8ByteSize_go_pos c cs
      simp only [len, String.utf8ByteSize] at h
      omega
  · rintro rfl; rfl

theorem trimLeft_eq_nil_iff (cs : List Char) :
    trimLeft cs = [] ↔ ∀ c ∈ cs, unicodeIsSpace c = true := by
  induction cs with
  | nil => simp [trimLeft]
  | cons c cs ih =>
    by_cases h : unicodeIsSpace c = true
    · simp [trimLeft, h, ih]
    · simp [trimLeft, h]

theorem trimRight_eq_nil_iff (cs : List Char) :
    trimRight cs = [] ↔ ∀ c ∈ cs, unicodeIsSpace c = true := by
  simp [trimRight, trimLeft_eq_nil_iff]

theorem trimLeft_all_space (cs : List Char) :
    (∀ c ∈ trimLeft cs, unicodeIsSpace c = true) ↔ ∀ c ∈ cs, unicodeIsSpace c = true := by
  induction cs with
  | nil => simp [trimLeft]
  | cons c cs ih =>
    by_cases h : unicodeIsSpace c = true
    · simp [trimLeft, h, ih]
    · simp [trimLeft, h]

theorem len_trimSpace_eq_zero_iff (s : String) :
    len (stringsTrimSpace s) = 0 ↔ ∀ c ∈ s.data, unicodeIsSpace c = true := by
  rw [len_eq_zero_iff]
  unfold stringsTrimSpace
  constructor
  · intro h
    have h2 : trimRight (trimLeft s.data) = [] := by
      have := congrArg String.data h
      simpa using this
    rw [trimRight_eq_nil_iff, trimLeft_all_space] at h2
    exact h2
  · intro h
    have : trimRight (trimLeft s.data) = [] := by
      rw [trimRight_eq_nil_iff, trimLeft_all_space]; exact h
    rw [this]

/-! ## Validation loops -/

theorem not_hasNonSpace_iff (s : String) :
    ¬ HasNonSpace s ↔ ∀ c ∈ s.data, unicodeIsSpace c = true := by
  simp [HasNonSpace]

theorem windowValidate_some (win : Window) :
    Window.Validate (some win) =
      if win.Name = "" then some (.errorString "window name is required")
      else if ∀ c ∈ win.Grid.data, unicodeIsSpace c = true then
        some (.errorString ("grid for window, " ++ win.Name ++ ", is empty"))
      else none := by
  simp only [Window.Validate, beq_iff_eq, len_trimSpace_eq_zero_iff]
  simp only [len_eq_zero_iff]

theorem windowValidate_eq_none_iff (w : Option Window) :
    Window.Validate w = none ↔ WindowOk w := by
  cases w with
  | none => simp [Window.Validate, WindowOk]
  | some win =>
    rw [windowValidate_some]
    by_cases h1 : win.Name = ""
    · simp [h1, WindowOk]
    · by_cases h2 : ∀ c ∈ win.Grid.data, unicodeIsSpace c = true
      · have := (not_hasNonSpace_iff win.Grid).2 h2
        simp [h1, WindowOk, this]
        exact h2
      · have h3 : HasNonSpace win.Grid := by
          by_contra hc; exact h2 ((not_hasNonSpace_iff _).1 hc)
        simp [h1, h2, WindowOk, h3]

theorem validateWindows_eq_none_iff (mem : Memory) (ws : List (Option Addr)) :
    validateWindows mem ws = none ↔ ∀ w ∈ ws, WindowOk (mem.window w) := by
  induction ws with
  | nil => simp [validateWindows]
  | cons w ws ih =>
    unfold validateWindows
    cases h : Window.Validate (mem.window w) with
    | none =>
      have := (windowValidate_eq_none_iff (mem.window w)).1 h
      simp [ih, this]
    | some e =>
      have : ¬ WindowOk (mem.window w) := fun hc => by
        rw [← windowValidate_eq_none_iff, h] at hc; cases hc
      simp [this]

theorem validateWindows_first (mem : Memory) (wpre : List (Option Addr)) (w : Option Addr)
    (wpost : List (Option Addr)) (e : GoError)
    (hpre : ∀ x ∈ wpre, WindowOk (mem.window x))
    (hw : Window.Validate (mem.window w) = some e) :
    validateWindows mem (wpre ++ w :: wpost) = some e := by
  induction wpre with
  | nil => simp [validateWindows, hw]
  | cons x xs ih =>
    have hx : Window.Validate (mem.window x) = none :=
      (windowValidate_eq_none_iff _).2 (hpre x (List.mem_cons_self _ _))
    have := ih (fun y hy => hpre y (List.mem_cons_of_mem _ hy))
    simpa [validateWindows, hx] using this

theorem validateWindows_some (mem : Memory) (ws : List (Option Addr)) (e : GoError)
    (h : validateWindows mem ws = some e) :
    ∃ wpre w wpost, ws = wpre ++ w :: wpost ∧ (∀ x ∈ wpre, WindowOk (mem.window x)) ∧
      Window.Validate (mem.window w) = some e := by
  induction ws with
  | nil => simp [validateWindows] at h
  | cons w ws ih =>
    unfold validateWindows at h
    cases hw : Window.Validate (mem.window w) with
    | some e1 =>
      rw [hw] at h
      simp only [Option.some.injEq] at h
      subst h
      exact ⟨[], w, ws, rfl, by simp, hw⟩
    | none =>
      rw [hw] at h
      obtain ⟨wpre, x, wpost, h1, h2, h3⟩ := ih h
      refine ⟨w :: wpre, x, wpost, by simp [h1], ?_, h3⟩
      intro y hy
      rcases List.mem_cons.1 hy with rfl | hy
      · exact (windowValidate_eq_none_iff _).1 hw
      · exact h2 y hy

theorem validateSessions_cons_some (mem : Memory) (a : Addr) (rest : List (Option Addr)) :
    validateSessions mem (some a :: rest) =
      match sessionVerdict mem (mem.sessions a) with
      | some e => .returned (some e)
      | none => validateSessions mem rest := by
  simp only [validateSessions, sessionVerdict, beq_iff_eq, len_eq_zero_iff,
    List.length_eq_zero]
  by_cases h1 : (mem.sessions a).Name = ""
  · simp [h1]
  · by_cases h2 : (mem.sessions a).Windows = []
    · simp [h1, h2]
    · simp only [h1, h2, if_false]

theorem sessionVerdict_eq_none_iff (mem : Memory) (a : Addr) :
    sessionVerdict mem (mem.sessions a) = none ↔ SessionOk mem (some a) := by
  unfold sessionVerdict SessionOk
  by_cases h1 : (mem.sessions a).Name = ""
  · simp [h1]
  · by_cases h2 : (mem.sessions a).Windows = []
    · simp [h1, h2]
    · simp [h1, h2, validateWindows_eq_none_iff]

theorem validateSessions_first (mem : Memory) (pre : List (Option Addr)) (a : Addr)
    (post : List (Option Addr)) (e : GoError) (hpre : ∀ t ∈ pre, SessionOk mem t)
    (hv : sessionVerdict mem (mem.sessions a) = some e) :
    validateSessions mem (pre ++ some a :: post) = .returned (some e) := by
  induction pre with
  | nil => simp [validateSessions_cons_some, hv]
  | cons x xs ih =>
    obtain ⟨t, rfl, ht⟩ := hpre x (List.mem_cons_self _ _)
    have hx : sessionVerdict mem (mem.sessions t) = none :=
      (sessionVerdict_eq_none_iff mem t).2 ⟨t, rfl, ht⟩
    have := ih (fun y hy => hpre y (List.mem_cons_of_mem _ hy))
    simpa [validateSessions_cons_some, hx] using this

theorem validateSessions_returned_none_iff (mem : Memory) (ss : List (Option Addr)) :
    validateSessions mem ss = .returned none ↔ ∀ s ∈ ss, SessionOk mem s := by
  induction ss with
  | nil => simp [validateSessions]
  | cons s ss ih =>
    cases s with
    | none => simp [validateSessions, SessionOk]
    | some a =>
      rw [validateSessions_cons_some]
      cases h : sessionVerdict mem (mem.sessions a) with
      | none =>
        have := (sessionVerdict_eq_none_iff mem a).1 h
        simp [ih, this]
      | some e =>
        have : ¬ SessionOk mem (some a) := fun hc => by
          rw [← sessionVerdict_eq_none_iff, h] at hc; cases hc
        simp [this]

theorem validateSessions_returned_some (mem : Memory) (ss : List (Option Addr)) (e : GoError)
    (h : validateSessions mem ss = .returned (some e)) :
    ∃ pre a post, ss = pre ++ some a :: post ∧ (∀ t ∈ pre, SessionOk mem t) ∧
      sessionVerdict mem (mem.sessions a) = some e := by
  induction ss with
  | nil => simp [validateSessions] at h
  | cons s ss ih =>
    cases s with
    | none => simp [validateSessions] at h
    | some a =>
      rw [validateSessions_cons_some] at h
      cases hv : sessionVerdict mem (mem.sessions a) with
      | some e1 =>
        rw [hv] at h
        simp only [Outcome.returned.injEq, Option.some.injEq] at h
        subst h
        exact ⟨[], a, ss, rfl, by simp, hv⟩
      | none =>
        rw [hv] at h
        obtain ⟨pre, x, post, h1, h2, h3⟩ := ih h
        refine ⟨some a :: pre, x, post, by simp [h1], ?_, h3⟩
        intro y hy
        rcases List.mem_cons.1 hy with rfl | hy
        · exact (sessionVerdict_eq_none_iff _ _).1 hv
        · exact h2 y hy

theorem validateSessions_no_panic (mem : Memory) (ss : List (Option Addr))
    (hs : ∀ s ∈ ss, s ≠ none) : validateSessions mem ss ≠ .nilDeref := by
  induction ss with
  | nil => simp [validateSessions]
  | cons s ss ih =>
    cases s with
    | none => exact absurd rfl (hs none (List.mem_cons_self _ _))
    | some a =>
      rw [validateSessions_cons_some]
      cases sessionVerdict mem (mem.sessions a) with
      | some e => simp
      | none => exact ih (fun y hy => hs y (List.mem_cons_of_mem _ hy))

/-! ## Parsing loops -/

theorem exists_first_failing {α : Type} (p : α → Prop) (l : List α)
    (h : ¬ ∀ x ∈ l, p x) :
    ∃ pre x post, l = pre ++ x :: post ∧ (∀ y ∈ pre, p y) ∧ ¬ p x := by
  induction l with
  | nil => exact absurd (by simp) h
  | cons a l ih =>
    by_cases ha : p a
    · have hl : ¬ ∀ x ∈ l, p x := by
        intro hall
        apply h
        intro x hx
        rcases List.mem_cons.1 hx with rfl | hx
        · exact ha
        · exact hall x hx
      obtain ⟨pre, x, post, h1, h2, h3⟩ := ih hl
      refine ⟨a :: pre, x, post, by simp [h1], ?_, h3⟩
      intro y hy
      rcases List.mem_cons.1 hy with rfl | hy
      · exact ha
      · exact h2 y hy
    · exact ⟨[], a, l, rfl, by simp, ha⟩

section ParseLemmas

variable (pg : String → Matrix × Option GoError)

variable (pgr : Matrix → Option Pane × Option GoError)

theorem windowParse_grid_fail (win : Window) (e : GoError)
    (h1 : (pg win.Grid).2 = some e) :
    Window.Parse pg pgr (some win) = (some win, some e) := by
  simp only [Window.Parse]
  rcases hp : pg win.Grid with ⟨grid, _ | e1⟩
  · rw [hp] at h1; cases h1
  · rw [hp] at h1
    simp only [Option.some.injEq] at h1
    rw [h1]

theorem windowParse_graph_fail (win : Window) (e : GoError)
    (h1 : (pg win.Grid).2 = none) (h2 : (pgr (pg win.Grid).1).2 = some e) :
    Window.Parse pg pgr (some win) = (some win, some e) := by
  simp only [Window.Parse]
  rcases hp : pg win.Grid with ⟨grid, _ | e1⟩
  · rw [hp] at h2
    rcases hq : pgr grid with ⟨pane, _ | e2⟩
    · rw [hq] at h2; cases h2
    · rw [hq] at h2
      simp only [Option.some.injEq] at h2
      simp only [hq, h2]
  · rw [hp] at h1; cases h1

theorem windowParse_success (win : Window)
    (h1 : (pg win.Grid).2 = none) (h2 : (pgr (pg win.Grid).1).2 = none) :
    Window.Parse pg pgr (some win) =
      (some { win with FirstPane := (pgr (pg win.Grid).1).1 }, none) := by
  simp only [Window.Parse]
  rcases hp : pg win.Grid with ⟨grid, _ | e1⟩
  · rw [hp] at h2
    rcases hq : pgr grid with ⟨pane, _ | e2⟩
    · simp only [hq]
    · rw [hq] at h2; cases h2
  · rw [hp] at h1; cases h1

theorem windowParse_fail_fst (win : Window) (e : GoError)
    (h : (Window.Parse pg pgr (some win)).2 = some e) :
    Window.Parse pg pgr (some win) = (some win, some e) := by
  cases h1 : (pg win.Grid).2 with
  | some e1 =>
    rw [windowParse_grid_fail pg pgr win e1 h1] at h ⊢
    simpa using h
  | none =>
    cases h2 : (pgr (pg win.Grid).1).2 with
    | some e2 =>
      rw [windowParse_graph_fail pg pgr win e2 h1 h2] at h ⊢
      simpa using h
    | none =>
      rw [windowParse_success pg pgr win h1 h2] at h
      cases h

theorem windowParse_error_source (win : Window) (e : GoError)
    (h : (Window.Parse pg pgr (some win)).2 = some e) :
    (pg win.Grid).2 = some e ∨
      ((pg win.Grid).2 = none ∧ (pgr (pg win.Grid).1).2 = some e) := by
  cases h1 : (pg win.Grid).2 with
  | some e1 =>
    rw [windowParse_grid_fail pg pgr win e1 h1] at h
    exact Or.inl (by simpa using h)
  | none =>
    cases h2 : (pgr (pg win.Grid).1).2 with
    | some e2 =>
      rw [windowParse_graph_fail pg pgr win e2 h1 h2] at h
      exact Or.inr ⟨rfl, by simpa using h⟩
    | none =>
      rw [windowParse_success pg pgr win h1 h2] at h
      cases h

theorem windowParse_ok (win : Window)
    (h : (Window.Parse pg pgr (some win)).2 = none) :
    Window.Parse pg pgr (some win) = (some (parsedWindow pg pgr win), none) := by
  cases h1 : (pg win.Grid).2 with
  | some e1 =>
    rw [windowParse_grid_fail pg pgr win e1 h1] at h
    cases h
  | none =>
    cases h2 : (pgr (pg win.Grid).1).2 with
    | some e2 =>
      rw [windowParse_graph_fail pg pgr win e2 h1 h2] at h
      cases h
    | none =>
      rw [windowParse_success pg pgr win h1 h2]
      rfl

theorem windowParse_snd_congr (w1 w2 : Window) (hg : w1.Grid = w2.Grid) :
    (Window.Parse pg pgr (some w1)).2 = (Window.Parse pg pgr (some w2)).2 := by
  cases h1 : (pg w1.Grid).2 with
  | some e1 =>
    rw [windowParse_grid_fail pg pgr w1 e1 h1,
      windowParse_grid_fail pg pgr w2 e1 (hg ▸ h1)]
  | none =>
    cases h2 : (pgr (pg w1.Grid).1).2 with
    | some e2 =>
      rw [windowParse_graph_fail pg pgr w1 e2 h1 h2,
        windowParse_graph_fail pg pgr w2 e2 (hg ▸ h1) (hg ▸ h2)]
    | none =>
      rw [windowParse_success pg pgr w1 h1 h2,
        windowParse_success pg pgr w2 (hg ▸ h1) (hg ▸ h2)]

/-- One successful step of the window loop: the window at `a` is replaced by
its parsed form. -/
theorem parseWindows_cons_ok (mem : Memory) (a : Addr) (ws : List (Option Addr))
    (h : (Window.Parse pg pgr (some (mem.windows a))).2 = none) :
    parseWindows pg pgr mem (some a :: ws) =
      parseWindows pg pgr
        (mem.store (some a) (some (parsedWindow pg pgr (mem.windows a)))) ws := by
  have hp := windowParse_ok pg pgr (mem.windows a) h
  simp only [parseWindows, Memory.window, Option.map_some', hp]

theorem store_same (mem : Memory) (a : Addr) :
    mem.store (some a) (some (mem.windows a)) = mem := by
  rcases mem with ⟨ss, ws⟩
  simp only [Memory.store, Memory.mk.injEq, true_and]
  funext b
  by_cases hb : b = a
  · simp [hb]
  · simp [hb]

theorem parseWindows_cons_fail (mem : Memory) (a : Addr) (ws : List (Option Addr))
    (e : GoError) (h : (Window.Parse pg pgr (some (mem.windows a))).2 = some e) :
    parseWindows pg pgr mem (some a :: ws) =
      (mem, .returned (some (parseError (mem.windows a) e))) := by
  have hp := windowParse_fail_fst pg pgr (mem.windows a) e h
  simp only [parseWindows, Memory.window, Option.map_some', hp, store_same, parseError]

theorem parseWindows_cons_nil (mem : Memory) (ws : List (Option Addr)) :
    parseWindows pg pgr mem (none :: ws) = (mem, .nilDeref) := by
  simp only [parseWindows, Memory.window, Option.map_none', Window.Parse, Memory.store]

theorem store_windows (mem : Memory) (a : Addr) (w : Window) (b : Addr) :
    ((mem.store (some a) (some w)).windows b) = if b = a then w else mem.windows b := rfl

theorem store_sessions (mem : Memory) (p : Option Addr) (w : Option Window) :
    (mem.store p w).sessions = mem.sessions := by
  cases p <;> cases w <;> rfl

theorem step_grid (mem : Memory) (a b : Addr) :
    ((mem.store (some a) (some (parsedWindow pg pgr (mem.windows a)))).windows b).Grid
      = (mem.windows b).Grid := by
  rw [store_windows]
  by_cases hb : b = a
  · simp [hb, parsedWindow]
  · simp [hb]

theorem step_name (mem : Memory) (a b : Addr) :
    ((mem.store (some a) (some (parsedWindow pg pgr (mem.windows a)))).windows b).Name
      = (mem.windows b).Name := by
  rw [store_windows]
  by_cases hb : b = a
  · simp [hb, parsedWindow]
  · simp [hb]

theorem step_parsed (mem : Memory) (a b : Addr) :
    parsedWindow pg pgr
        ((mem.store (some a) (some (parsedWindow pg pgr (mem.windows a)))).windows b)
      = parsedWindow pg pgr (mem.windows b) := by
  rw [store_windows]
  by_cases hb : b = a
  · simp [hb, parsedWindow]
  · simp [hb]

theorem step_ok (mem : Memory) (a : Addr) (x : Option Addr) :
    (Window.Parse pg pgr
        ((mem.store (some a) (some (parsedWindow pg pgr (mem.windows a)))).window x)).2
      = (Window.Parse pg pgr (mem.window x)).2 := by
  cases x with
  | none => rfl
  | some b =>
    simp only [Memory.window, Option.map_some']
    exact windowParse_snd_congr pg pgr _ _ (step_grid pg pgr mem a b)

theorem ok_not_nil (mem : Memory) (x : Option Addr)
    (h : (Window.Parse pg pgr (mem.window x)).2 = none) : ∃ a, x = some a := by
  cases x with
  | none => simp [Memory.window, Window.Parse] at h
  | some a => exact ⟨a, rfl⟩

/-- The window loop when every slot parses: it returns nil, and exactly the
windows that a slot points to are replaced by their parsed form. -/
theorem parseWindows_all_ok (mem : Memory) (ws : List (Option Addr))
    (h : ∀ w ∈ ws, (Window.Parse pg pgr (mem.window w)).2 = none) :
    (parseWindows pg pgr mem ws).2 = .returned none ∧
      (parseWindows pg pgr mem ws).1.sessions = mem.sessions ∧
      ∀ b, (parseWindows pg pgr mem ws).1.windows b =
        if some b ∈ ws then parsedWindow pg pgr (mem.windows b) else mem.windows b := by
  induction ws generalizing mem with
  | nil => simp [parseWindows]
  | cons w ws ih =>
    obtain ⟨a, rfl⟩ := ok_not_nil pg pgr mem w (h w (List.mem_cons_self _ _))
    have ha := h (some a) (List.mem_cons_self _ _)
    simp only [Memory.window, Option.map_some'] at ha
    rw [parseWindows_cons_ok pg pgr mem a ws ha]
    have hrest : ∀ x ∈ ws, (Window.Parse pg pgr
        ((mem.store (some a) (some (parsedWindow pg pgr (mem.windows a)))).window x)).2
          = none := by
      intro x hx
      rw [step_ok]
      exact h x (List.mem_cons_of_mem _ hx)
    obtain ⟨e1, e2, e3⟩ := ih _ hrest
    refine ⟨e1, by rw [e2, store_sessions], ?_⟩
    intro b
    rw [e3 b, step_parsed, store_windows]
    by_cases hb : b = a
    · subst hb
      simp
    · have hne : ¬ (some b = some a) := fun hc => hb (Option.some.inj hc)
      simp [hb, hne]

/-- The window loop up to its first failing slot: it returns the wrapped
error of that window, and exactly the windows that an earlier slot points to
are replaced by their parsed form. -/
theorem parseWindows_first (mem : Memory) (pre : List (Option Addr)) (a : Addr)
    (post : List (Option Addr)) (e : GoError)
    (hpre : ∀ w ∈ pre, (Window.Parse pg pgr (mem.window w)).2 = none)
    (hw : (Window.Parse pg pgr (some (mem.windows a))).2 = some e) :
    (parseWindows pg pgr mem (pre ++ some a :: post)).2
        = .returned (some (parseError (mem.windows a) e)) ∧
      (parseWindows pg pgr mem (pre ++ some a :: post)).1.sessions = mem.sessions ∧
      ∀ b, (parseWindows pg pgr mem (pre ++ some a :: post)).1.windows b =
        if some b ∈ pre then parsedWindow pg pgr (mem.windows b) else mem.windows b := by
  induction pre generalizing mem with
  | nil =>
    rw [List.nil_append, parseWindows_cons_fail pg pgr mem a post e hw]
    simp
  | cons x xs ih =>
    obtain ⟨c, rfl⟩ := ok_not_nil pg pgr mem x (hpre x (List.mem_cons_self _ _))
    have hc := hpre (some c) (List.mem_cons_self _ _)
    simp only [Memory.window, Option.map_some'] at hc
    rw [List.cons_append, parseWindows_cons_ok pg pgr mem c _ hc]
    have hrest : ∀ y ∈ xs, (Window.Parse pg pgr
        ((mem.store (some c) (some (parsedWindow pg pgr (mem.windows c)))).window y)).2
          = none := by
      intro y hy
      rw [step_ok]
      exact hpre y (List.mem_cons_of_mem _ hy)
    have hw1 : (Window.Parse pg pgr (some
        ((mem.store (some c) (some (parsedWindow pg pgr (mem.windows c)))).windows a))).2
          = some e := by
      rw [← hw]
      exact windowParse_snd_congr pg pgr _ _ (step_grid pg pgr mem c a)
    obtain ⟨e1, e2, e3⟩ := ih _ hrest hw1
    refine ⟨?_, by rw [e2, store_sessions], ?_⟩
    · rw [e1]
      simp only [parseError, step_name]
    · intro b
      rw [e3 b, step_parsed, store_windows]
      by_cases hb : b = c
      · subst hb
        simp
      · have hne : ¬ (some b = some c) := fun hcc => hb (Option.some.inj hcc)
        simp [hb, hne]

/-- The window loop up to a first nil slot reached after slots that parse:
it panics. -/
theorem parseWindows_first_nil (mem : Memory) (pre : List (Option Addr))
    (post : List (Option Addr))
    (hpre : ∀ w ∈ pre, (Window.Parse pg pgr (mem.window w)).2 = none) :
    (parseWindows pg pgr mem (pre ++ none :: post)).2 = .nilDeref := by
  induction pre generalizing mem with
  | nil => rw [List.nil_append, parseWindows_cons_nil]
  | cons x xs ih =>
    obtain ⟨c, rfl⟩ := ok_not_nil pg pgr mem x (hpre x (List.mem_cons_self _ _))
    have hc := hpre (some c) (List.mem_cons_self _ _)
    simp only [Memory.window, Option.map_some'] at hc
    rw [List.cons_append, parseWindows_cons_ok pg pgr mem c _ hc]
    apply ih
    intro y hy
    rw [step_ok]
    exact hpre y (List.mem_cons_of_mem _ hy)

theorem parseWindows_returned_none_iff (mem : Memory) (ws : List (Option Addr)) :
    (parseWindows pg pgr mem ws).2 = .returned none ↔
      ∀ w ∈ ws, (Window.Parse pg pgr (mem.window w)).2 = none := by
  constructor
  · intro h
    by_contra hall
    obtain ⟨pre, x, post, h1, h2, h3⟩ :=
      exists_first_failing (fun w => (Window.Parse pg pgr (mem.window w)).2 = none) ws hall
    rw [h1] at h
    cases x with
    | none =>
      rw [parseWindows_first_nil pg pgr mem pre post h2] at h
      cases h
    | some a =>
      cases he : (Window.Parse pg pgr (some (mem.windows a))).2 with
      | none => exact h3 he
      | some e =>
        rw [(parseWindows_first pg pgr mem pre a post e h2 he).1] at h
        cases h
  · intro h
    exact (parseWindows_all_ok pg pgr mem ws h).1

theorem parseWindows_sessions (mem : Memory) (ws : List (Option Addr)) :
    (parseWindows pg pgr mem ws).1.sessions = mem.sessions := by
  by_cases hall : ∀ w ∈ ws, (Window.Parse pg pgr (mem.window w)).2 = none
  · exact (parseWindows_all_ok pg pgr mem ws hall).2.1
  · obtain ⟨pre, x, post, h1, h2, h3⟩ :=
      exists_first_failing (fun w => (Window.Parse pg pgr (mem.window w)).2 = none) ws hall
    rw [h1]
    cases x with
    | none =>
      clear h1 h3 hall
      induction pre generalizing mem with
      | nil => rw [List.nil_append, parseWindows_cons_nil]
      | cons y ys ih =>
        obtain ⟨c, rfl⟩ := ok_not_nil pg pgr mem y (h2 y (List.mem_cons_self _ _))
        have hc := h2 (some c) (List.mem_cons_self _ _)
        simp only [Memory.window, Option.map_some'] at hc
        rw [List.cons_append, parseWindows_cons_ok pg pgr mem c _ hc, ih, store_sessions]
        intro z hz
        rw [step_ok]
        exact h2 z (List.mem_cons_of_mem _ hz)
    | some a =>
      cases he : (Window.Parse pg pgr (some (mem.windows a))).2 with
      | none => exact absurd he h3
      | some e => exact (parseWindows_first pg pgr mem pre a post e h2 he).2.1

theorem parseWindows_append (mem : Memory) (a b : List (Option Addr)) :
    parseWindows pg pgr mem (a ++ b) =
      if (parseWindows pg pgr mem a).2 = .returned none then
        parseWindows pg pgr (parseWindows pg pgr mem a).1 b
      else parseWindows pg pgr mem a := by
  induction a generalizing mem with
  | nil => simp [parseWindows]
  | cons w ws ih =>
    cases w with
    | none => simp [parseWindows_cons_nil]
    | some c =>
      cases hc : (Window.Parse pg pgr (some (mem.windows c))).2 with
      | none =>
        rw [List.cons_append, parseWindows_cons_ok pg pgr mem c _ hc,
          parseWindows_cons_ok pg pgr mem c _ hc, ih]
      | some e =>
        rw [List.cons_append, parseWindows_cons_fail pg pgr mem c _ e hc,
          parseWindows_cons_fail pg pgr mem c _ e hc]
        simp

theorem allWindows_congr (mem mem1 : Memory) (h : mem1.sessions = mem.sessions)
    (ss : List (Option Addr)) : allWindows mem1 ss = allWindows mem ss := by
  induction ss with
  | nil => rfl
  | cons s ss ih =>
    cases s with
    | none => simpa [allWindows] using ih
    | some a => simp [allWindows, ih, h]

theorem parseSessions_cons_some (mem : Memory) (a : Addr) (rest : List (Option Addr)) :
    parseSessions pg pgr mem (some a :: rest) =
      if (parseWindows pg pgr mem (mem.sessions a).Windows).2 = .returned none then
        parseSessions pg pgr (parseWindows pg pgr mem (mem.sessions a).Windows).1 rest
      else parseWindows pg pgr mem (mem.sessions a).Windows := by
  rcases hp : parseWindows pg pgr mem (mem.sessions a).Windows with ⟨mem1, r⟩
  rcases r with (_ | e) | _ <;> simp [parseSessions, hp]

/-- The two loops of `Config.Parse` together are the window loop over all
window slots in order, when no session slot is nil. -/
theorem parseSessions_flat (mem : Memory) (ss : List (Option Addr))
    (hs : ∀ s ∈ ss, s ≠ none) :
    parseSessions pg pgr mem ss = parseWindows pg pgr mem (allWindows mem ss) := by
  induction ss generalizing mem with
  | nil => simp [parseSessions, allWindows, parseWindows]
  | cons s ss ih =>
    cases s with
    | none => exact absurd rfl (hs none (List.mem_cons_self _ _))
    | some a =>
      have hs1 : ∀ s ∈ ss, s ≠ none := fun y hy => hs y (List.mem_cons_of_mem _ hy)
      rw [parseSessions_cons_some, allWindows, parseWindows_append]
      by_cases h : (parseWindows pg pgr mem (mem.sessions a).Windows).2 = .returned none
      · simp only [h, if_true]
        rw [ih _ hs1, allWindows_congr _ _ (parseWindows_sessions pg pgr mem _)]
      · simp only [h, if_false]

theorem parseWindows_no_panic (mem : Memory) (ws : List (Option Addr))
    (hw : ∀ w ∈ ws, w ≠ none) : (parseWindows pg pgr mem ws).2 ≠ .nilDeref := by
  by_cases hall : ∀ w ∈ ws, (Window.Parse pg pgr (mem.window w)).2 = none
  · rw [(parseWindows_all_ok pg pgr mem ws hall).1]
    simp
  · obtain ⟨pre, x, post, h1, h2, h3⟩ :=
      exists_first_failing (fun w => (Window.Parse pg pgr (mem.window w)).2 = none) ws hall
    cases x with
    | none => exact absurd rfl (hw none (by rw [h1]; simp))
    | some a =>
      cases he : (Window.Parse pg pgr (some (mem.windows a))).2 with
      | none => exact absurd he h3
      | some e =>
        rw [h1, (parseWindows_first pg pgr mem pre a post e h2 he).1]
        simp

end ParseLemmas

/-! ## Window slots and texts -/

theorem mem_allWindows (mem : Memory) (ss : List (Option Addr)) (w : Option Addr) :
    w ∈ allWindows mem ss ↔ ∃ a, some a ∈ ss ∧ w ∈ (mem.sessions a).Windows := by
  induction ss with
  | nil => simp [allWindows]
  | cons s ss ih =>
    cases s with
    | none => simp [allWindows, ih]
    | some c =>
      simp only [allWindows, List.mem_append, ih, List.mem_cons, Option.some.injEq]
      constructor
      · rintro (h | ⟨t, ht, hw⟩)
        · exact ⟨c, Or.inl rfl, h⟩
        · exact ⟨t, Or.inr ht, hw⟩
      · rintro ⟨t, rfl | ht, hw⟩
        · exact Or.inl hw
        · exact Or.inr ⟨t, ht, hw⟩

theorem contains_append (a b c : String) : Contains (a ++ b ++ c) b :=
  ⟨a.data, c.data, by simp [String.data_append]⟩

theorem contains_append_right (a b : String) : Contains (a ++ b) b :=
  ⟨a.data, [], by simp [String.data_append]⟩

/-! ## Cells, bounding boxes and label regions -/

theorem mem_matrixCells (m : Matrix) (r c : Nat) (ch : Char) :
    (r, c, ch) ∈ matrixCells m ↔ labelAt m r c = some ch := by
  unfold matrixCells labelAt
  simp only [List.mem_flatMap, List.mem_map, Prod.exists, Prod.mk.injEq]
  constructor
  · rintro ⟨i, row, hrow, j, x, hx, rfl, rfl, rfl⟩
    rw [List.mk_mem_enum_iff_getElem?] at hrow hx
    simp [hrow, hx]
  · intro h
    cases hrow : m[r]? with
    | none => simp [hrow] at h
    | some row =>
      simp only [hrow] at h
      exact ⟨r, row, List.mk_mem_enum_iff_getElem?.2 hrow, c, ch,
        List.mk_mem_enum_iff_getElem?.2 h, rfl, rfl, rfl⟩

theorem distinct_subset (l : List Char) (x : Char) : x ∈ distinct l → x ∈ l := by
  induction l with
  | nil => simp [distinct]
  | cons c cs ih =>
    simp only [distinct, List.mem_cons, List.mem_filter]
    rintro (h | ⟨h, _⟩)
    · exact Or.inl h
    · exact Or.inr (ih h)

theorem mem_distinct (l : List Char) (x : Char) : x ∈ distinct l ↔ x ∈ l := by
  refine ⟨distinct_subset l x, ?_⟩
  induction l with
  | nil => simp
  | cons c cs ih =>
    simp only [distinct, List.mem_cons, List.mem_filter]
    rintro (h | h)
    · exact Or.inl h
    · by_cases hx : x = c
      · exact Or.inl hx
      · exact Or.inr ⟨ih h, by simpa using hx⟩

theorem nodup_distinct (l : List Char) : (distinct l).Nodup := by
  induction l with
  | nil => simp [distinct]
  | cons c cs ih =>
    simp only [distinct, List.nodup_cons, List.mem_filter]
    refine ⟨?_, ih.filter _⟩
    simp

theorem boundingBox_contains (label : Char) (cells : List (Nat × Nat × Char)) (r c : Nat)
    (h : (r, c, label) ∈ cells) :
    ∃ b, boundingBox label cells = some b ∧ b.contains r c = true := by
  induction cells with
  | nil => simp at h
  | cons cell rest ih =>
    unfold boundingBox
    by_cases hl : cell.2.2 = label
    · simp only [hl, if_true]
      refine ⟨_, rfl, ?_⟩
      rcases List.mem_cons.1 h with heq | hmem
      · subst heq
        cases boundingBox label rest with
        | none => simp [Region.extend, Region.contains]
        | some b => simp [Region.extend, Region.contains]
      · obtain ⟨b, hb, hc⟩ := ih hmem
        rw [hb]
        simp only [Region.contains, Bool.and_eq_true, decide_eq_true_eq] at hc
        simp only [Region.extend, Region.contains, Bool.and_eq_true, decide_eq_true_eq]
        omega
    · simp only [hl, if_false]
      rcases List.mem_cons.1 h with heq | hmem
      · subst heq; exact absurd rfl hl
      · exact ih hmem

theorem boundingBox_bounds (label : Char) (cells : List (Nat × Nat × Char)) (nr nc : Nat)
    (hcells : ∀ cell ∈ cells, cell.1 < nr ∧ cell.2.1 < nc) (b : Region)
    (h : boundingBox label cells = some b) : b.rowEnd ≤ nr ∧ b.colEnd ≤ nc := by
  induction cells generalizing b with
  | nil => simp [boundingBox] at h
  | cons cell rest ih =>
    unfold boundingBox at h
    have hc := hcells cell (List.mem_cons_self _ _)
    have hrest : ∀ x ∈ rest, x.1 < nr ∧ x.2.1 < nc :=
      fun x hx => hcells x (List.mem_cons_of_mem _ hx)
    by_cases hl : cell.2.2 = label
    · simp only [hl, if_true, Option.some.injEq] at h
      subst h
      cases hb : boundingBox label rest with
      | none => simp only [Region.extend]; omega
      | some b1 =>
        have := ih hrest b1 hb
        simp only [Region.extend]
        omega
    · simp only [hl, if_false] at h
      exact ih hrest b h

theorem labelRegions_ok (cells : List (Nat × Nat × Char)) (labels : List Char)
    (regions : List (Char × Region)) (h : labelRegions cells labels = .ok regions) :
    regions.map (fun e => e.1) = labels ∧
      ∀ e ∈ regions, boundingBox e.1 cells = some e.2 ∧
        ∀ cell ∈ cells, e.2.contains cell.1 cell.2.1 = true → cell.2.2 = e.1 := by
  induction labels generalizing regions with
  | nil =>
    simp only [labelRegions, Except.ok.injEq] at h
    subst h
    simp
  | cons label rest ih =>
    unfold labelRegions at h
    cases hb : boundingBox label cells with
    | none => simp [hb] at h
    | some b =>
      simp only [hb] at h
      by_cases hall : (cells.all fun cell => !b.contains cell.1 cell.2.1 || cell.2.2 == label) = true
      · simp only [hall, if_true] at h
        cases hr : labelRegions cells rest with
        | error e => simp [hr] at h
        | ok regs =>
          simp only [hr, Except.ok.injEq] at h
          subst h
          obtain ⟨h1, h2⟩ := ih regs hr
          refine ⟨by simp [h1], ?_⟩
          intro e he
          rcases List.mem_cons.1 he with rfl | he
          · refine ⟨hb, ?_⟩
            intro cell hcell hcon
            have := List.all_eq_true.1 hall cell hcell
            simpa [hcon] using this
          · exact h2 e he
      · simp [hall] at h

/-! ## Cuts keep a tiling -/

theorem findCut_some (lo hi : Nat) (ok : Nat → Bool) (p : Nat)
    (h : findCut lo hi ok = some p) : lo < p ∧ p < hi ∧ ok p = true := by
  unfold findCut at h
  have h1 := List.find?_some h
  have h2 := List.mem_of_find?_eq_some h
  rw [List.mem_range'_1] at h2
  refine ⟨by omega, by omega, h1⟩

theorem tiles_left (m : Matrix) (R : Region) (L : List (Char × Region)) (p : Nat)
    (hT : TilesExactly m R L) (hp : p ≤ R.colEnd) (hok : columnCutOk L p = true) :
    TilesExactly m { R with colEnd := p } (L.filter (fun e => decide (e.2.colEnd ≤ p))) := by
  obtain ⟨hA, hB⟩ := hT
  constructor
  · intro e he
    rw [List.mem_filter] at he
    have := hA e he.1
    have h2 := he.2
    simp only [decide_eq_true_eq] at h2
    exact ⟨this.1, this.2.1, this.2.2.1, h2⟩
  · intro r c hc
    simp only [Region.contains, Bool.and_eq_true, decide_eq_true_eq] at hc
    obtain ⟨ch, h1, h2⟩ := hB r c (by
      simp only [Region.contains, Bool.and_eq_true, decide_eq_true_eq]; omega)
    refine ⟨ch, h1, ?_⟩
    rw [List.filter_filter, ← h2]
    congr 1
    apply List.filter_congr
    intro e he
    have hcut := List.all_eq_true.1 hok e he
    simp only [Bool.or_eq_true, decide_eq_true_eq] at hcut
    by_cases hcon : e.2.contains r c = true
    · simp only [hcon, Bool.true_and, decide_eq_true_eq]
      simp only [Region.contains, Bool.and_eq_true, decide_eq_true_eq] at hcon
      omega
    · simp [hcon]

theorem tiles_right (m : Matrix) (R : Region) (L : List (Char × Region)) (p : Nat)
    (hT : TilesExactly m R L) (hp : R.colStart ≤ p) (hok : columnCutOk L p = true) :
    TilesExactly m { R with colStart := p } (L.filter (fun e => decide (p ≤ e.2.colStart))) := by
  obtain ⟨hA, hB⟩ := hT
  constructor
  · intro e he
    rw [List.mem_filter] at he
    have := hA e he.1
    have h2 := he.2
    simp only [decide_eq_true_eq] at h2
    exact ⟨this.1, this.2.1, h2, this.2.2.2⟩
  · intro r c hc
    simp only [Region.contains, Bool.and_eq_true, decide_eq_true_eq] at hc
    obtain ⟨ch, h1, h2⟩ := hB r c (by
      simp only [Region.contains, Bool.and_eq_true, decide_eq_true_eq]; omega)
    refine ⟨ch, h1, ?_⟩
    rw [List.filter_filter, ← h2]
    congr 1
    apply List.filter_congr
    intro e he
    have hcut := List.all_eq_true.1 hok e he
    simp only [Bool.or_eq_true, decide_eq_true_eq] at hcut
    by_cases hcon : e.2.contains r c = true
    · simp only [hcon, Bool.true_and, decide_eq_true_eq]
      simp only [Region.contains, Bool.and_eq_true, decide_eq_true_eq] at hcon
      omega
    · simp [hcon]

theorem tiles_top (m : Matrix) (R : Region) (L : List (Char × Region)) (p : Nat)
    (hT : TilesExactly m R L) (hp : p ≤ R.rowEnd) (hok : rowCutOk L p = true) :
    TilesExactly m { R with rowEnd := p } (L.filter (fun e => decide (e.2.rowEnd ≤ p))) := by
  obtain ⟨hA, hB⟩ := hT
  constructor
  · intro e he
    rw [List.mem_filter] at he
    have := hA e he.1
    have h2 := he.2
    simp only [decide_eq_true_eq] at h2
    exact ⟨this.1, h2, this.2.2.1, this.2.2.2⟩
  · intro r c hc
    simp only [Region.contains, Bool.and_eq_true, decide_eq_true_eq] at hc
    obtain ⟨ch, h1, h2⟩ := hB r c (by
      simp only [Region.contains, Bool.and_eq_true, decide_eq_true_eq]; omega)
    refine ⟨ch, h1, ?_⟩
    rw [List.filter_filter, ← h2]
    congr 1
    apply List.filter_congr
    intro e he
    have hcut := List.all_eq_true.1 hok e he
    simp only [Bool.or_eq_true, decide_eq_true_eq] at hcut
    by_cases hcon : e.2.contains r c = true
    · simp only [hcon, Bool.true_and, decide_eq_true_eq]
      simp only [Region.contains, Bool.and_eq_true, decide_eq_true_eq] at hcon
      omega
    · simp [hcon]

theorem tiles_bottom (m : Matrix) (R : Region) (L : List (Char × Region)) (p : Nat)
    (hT : TilesExactly m R L) (hp : R.rowStart ≤ p) (hok : rowCutOk L p = true) :
    TilesExactly m { R with rowStart := p } (L.filter (fun e => decide (p ≤ e.2.rowStart))) := by
  obtain ⟨hA, hB⟩ := hT
  constructor
  · intro e he
    rw [List.mem_filter] at he
    have := hA e he.1
    have h2 := he.2
    simp only [decide_eq_true_eq] at h2
    exact ⟨h2, this.2.1, this.2.2.1, this.2.2.2⟩
  · intro r c hc
    simp only [Region.contains, Bool.and_eq_true, decide_eq_true_eq] at hc
    obtain ⟨ch, h1, h2⟩ := hB r c (by
      simp only [Region.contains, Bool.and_eq_true, decide_eq_true_eq]; omega)
    refine ⟨ch, h1, ?_⟩
    rw [List.filter_filter, ← h2]
    congr 1
    apply List.filter_congr
    intro e he
    have hcut := List.all_eq_true.1 hok e he
    simp only [Bool.or_eq_true, decide_eq_true_eq] at hcut
    by_cases hcon : e.2.contains r c = true
    · simp only [hcon, Bool.true_and, decide_eq_true_eq]
      simp only [Region.contains, Bool.and_eq_true, decide_eq_true_eq] at hcon
      omega
    · simp [hcon]

theorem filter_contains_eq_nil (L : List (Char × Region)) (r c : Nat)
    (h : ∀ e ∈ L, e.2.contains r c = false) :
    L.filter (fun e => e.2.contains r c) = [] := by
  rw [List.filter_eq_nil_iff]
  intro e he
  simp [h e he]

theorem tiles_join_columns (m : Matrix) (R : Region) (A B : List (Char × Region)) (p : Nat)
    (h1 : R.colStart ≤ p) (h2 : p ≤ R.colEnd)
    (hA : TilesExactly m { R with colEnd := p } A)
    (hB : TilesExactly m { R with colStart := p } B) :
    TilesExactly m R (A ++ B) := by
  constructor
  · intro e he
    rcases List.mem_append.1 he with he | he
    · have := hA.1 e he
      simp only at this
      omega
    · have := hB.1 e he
      simp only at this
      omega
  · intro r c hc
    simp only [Region.contains, Bool.and_eq_true, decide_eq_true_eq] at hc
    rw [List.filter_append, List.map_append]
    by_cases hcp : c < p
    · obtain ⟨ch, e1, e2⟩ := hA.2 r c (by
        simp only [Region.contains, Bool.and_eq_true, decide_eq_true_eq]; omega)
      refine ⟨ch, e1, ?_⟩
      rw [e2, filter_contains_eq_nil B r c]
      · rfl
      · intro e he
        have := hB.1 e he
        simp only at this
        simp only [Region.contains, Bool.and_eq_false_iff, decide_eq_false_iff_not]
        omega
    · obtain ⟨ch, e1, e2⟩ := hB.2 r c (by
        simp only [Region.contains, Bool.and_eq_true, decide_eq_true_eq]; omega)
      refine ⟨ch, e1, ?_⟩
      rw [e2, filter_contains_eq_nil A r c]
      · rfl
      · intro e he
        have := hA.1 e he
        simp only at this
        simp only [Region.contains, Bool.and_eq_false_iff, decide_eq_false_iff_not]
        omega

theorem tiles_join_rows (m : Matrix) (R : Region) (A B : List (Char × Region)) (p : Nat)
    (h1 : R.rowStart ≤ p) (h2 : p ≤ R.rowEnd)
    (hA : TilesExactly m { R with rowEnd := p } A)
    (hB : TilesExactly m { R with rowStart := p } B) :
    TilesExactly m R (A ++ B) := by
  constructor
  · intro e he
    rcases List.mem_append.1 he with he | he
    · have := hA.1 e he
      simp only at this
      omega
    · have := hB.1 e he
      simp only at this
      omega
  · intro r c hc
    simp only [Region.contains, Bool.and_eq_true, decide_eq_true_eq] at hc
    rw [List.filter_append, List.map_append]
    by_cases hcp : r < p
    · obtain ⟨ch, e1, e2⟩ := hA.2 r c (by
        simp only [Region.contains, Bool.and_eq_true, decide_eq_true_eq]; omega)
      refine ⟨ch, e1, ?_⟩
      rw [e2, filter_contains_eq_nil B r c]
      · rfl
      · intro e he
        have := hB.1 e he
        simp only at this
        simp only [Region.contains, Bool.and_eq_false_iff, decide_eq_false_iff_not]
        omega
    · obtain ⟨ch, e1, e2⟩ := hB.2 r c (by
        simp only [Region.contains, Bool.and_eq_true, decide_eq_true_eq]; omega)
      refine ⟨ch, e1, ?_⟩
      rw [e2, filter_contains_eq_nil A r c]
      · rfl
      · intro e he
        have := hA.1 e he
        simp only at this
        simp only [Region.contains, Bool.and_eq_false_iff, decide_eq_false_iff_not]
        omega

/-! ## The planner -/

theorem tiles_single (m : Matrix) (R : Region) (e : Char × Region)
    (hT : TilesExactly m R [e]) : TilesExactly m R [(e.1, R)] := by
  constructor
  · intro x hx
    simp only [List.mem_singleton] at hx
    subst hx
    simp
  · intro r c hc
    obtain ⟨ch, h1, h2⟩ := hT.2 r c hc
    refine ⟨ch, h1, ?_⟩
    by_cases hcon : e.2.contains r c = true
    · simp only [List.filter, hcon, List.map] at h2
      simp only [List.filter, hc, List.map]
      exact h2
    · simp [List.filter, hcon] at h2

theorem plan_tiles (m : Matrix) (fuel : Nat) (R : Region) (L : List (Char × Region))
    (pane : Pane) (h : plan fuel R L = some (.ok pane)) (hT : TilesExactly m R L) :
    TilesExactly m R (pane.leaves R) := by
  induction fuel generalizing R L pane with
  | zero => simp [plan] at h
  | succ fuel ih =>
    unfold plan at h
    split at h
    · simp only [Option.some.injEq, Except.ok.injEq] at h
      subst h
      exact tiles_single m R _ hT
    · split at h
      · rename_i p hcut
        obtain ⟨hlo, hhi, hok⟩ := findCut_some _ _ _ _ hcut
        split at h
        · exact absurd h (by simp)
        · exact absurd h (by simp)
        · rename_i first hfirst
          split at h
          · exact absurd h (by simp)
          · exact absurd h (by simp)
          · rename_i second hsecond
            simp only [Option.some.injEq, Except.ok.injEq] at h
            subst h
            have e1 := ih _ _ _ hfirst (tiles_left m R L p hT (by omega) hok)
            have e2 := ih _ _ _ hsecond (tiles_right m R L p hT (by omega) hok)
            have hp : R.colStart + (p - R.colStart) = p := by omega
            simp only [Pane.leaves, hp]
            exact tiles_join_columns m R _ _ p (by omega) (by omega) e1 e2
      · split at h
        · rename_i p hcut
          obtain ⟨hlo, hhi, hok⟩ := findCut_some _ _ _ _ hcut
          split at h
          · exact absurd h (by simp)
          · exact absurd h (by simp)
          · rename_i first hfirst
            split at h
            · exact absurd h (by simp)
            · exact absurd h (by simp)
            · rename_i second hsecond
              simp only [Option.some.injEq, Except.ok.injEq] at h
              subst h
              have e1 := ih _ _ _ hfirst (tiles_top m R L p hT (by omega) hok)
              have e2 := ih _ _ _ hsecond (tiles_bottom m R L p hT (by omega) hok)
              have hp : R.rowStart + (p - R.rowStart) = p := by omega
              simp only [Pane.leaves, hp]
              exact tiles_join_rows m R _ _ p (by omega) (by omega) e1 e2
        · exact absurd h (by simp)

/-- The planner never runs out of fuel when it is given more fuel than the
height and width of its region together. -/
theorem plan_fuel_enough (fuel : Nat) (R : Region) (L : List (Char × Region))
    (h : (R.rowEnd - R.rowStart) + (R.colEnd - R.colStart) < fuel) :
    plan fuel R L ≠ none := by
  induction fuel generalizing R L with
  | zero => omega
  | succ fuel ih =>
    unfold plan
    split
    · simp
    · split
      · rename_i p hcut
        obtain ⟨hlo, hhi, hok⟩ := findCut_some _ _ _ _ hcut
        split
        · rename_i hfirst
          exact absurd hfirst (ih _ _ (by simp only; omega))
        · simp
        · split
          · rename_i hsecond
            exact absurd hsecond (ih _ _ (by simp only; omega))
          · simp
          · simp
      · split
        · rename_i p hcut
          obtain ⟨hlo, hhi, hok⟩ := findCut_some _ _ _ _ hcut
          split
          · rename_i hfirst
            exact absurd hfirst (ih _ _ (by simp only; omega))
          · simp
          · split
            · rename_i hsecond
              exact absurd hsecond (ih _ _ (by simp only; omega))
            · simp
            · simp
        · simp

/-! ## From the grid text to the pane graph -/

theorem prepareGrid_rect (text : String) (m : Matrix) (h : PrepareGrid text = (m, none)) :
    IsRect m m.length (m.headD []).length := by
  unfold PrepareGrid at h
  simp only at h
  split at h
  · simp at h
  · split at h
    · simp at h
    · rename_i first rest hsplit
      split at h
      · rename_i hall
        simp only [Prod.mk.injEq, and_true] at h
        subst h
        refine ⟨rfl, ?_⟩
        intro row hrow
        rcases List.mem_cons.1 hrow with rfl | hrow
        · rfl
        · have := List.all_eq_true.1 hall row hrow
          simpa using this
      · simp at h

theorem labelAt_some_bounds (m : Matrix) (nr nc : Nat) (hm : IsRect m nr nc)
    (r c : Nat) (ch : Char) (h : labelAt m r c = some ch) : r < nr ∧ c < nc := by
  unfold labelAt at h
  cases hrow : m[r]? with
  | none => simp [hrow] at h
  | some row =>
    simp only [hrow] at h
    obtain ⟨hr, hr2⟩ := List.getElem?_eq_some_iff.1 hrow
    obtain ⟨hc, _⟩ := List.getElem?_eq_some_iff.1 h
    have hmem : row ∈ m := hr2 ▸ List.getElem_mem _
    rw [hm.2 row hmem] at hc
    exact ⟨hm.1 ▸ hr, hc⟩

theorem labelAt_of_bounds (m : Matrix) (nr nc : Nat) (hm : IsRect m nr nc)
    (r c : Nat) (hr : r < nr) (hc : c < nc) : ∃ ch, labelAt m r c = some ch := by
  unfold labelAt
  have hr1 : r < m.length := hm.1 ▸ hr
  have hrow : m[r]? = some m[r] := List.getElem?_eq_getElem hr1
  have hlen : (m[r]).length = nc := hm.2 _ (List.getElem_mem _)
  have hc1 : c < (m[r]).length := hlen ▸ hc
  exact ⟨(m[r])[c], by simp only [hrow]; exact List.getElem?_eq_getElem hc1⟩

theorem filter_label_eq (regions : List (Char × Region)) (ch : Char)
    (hnd : (regions.map (fun e => e.1)).Nodup) (hmem : ch ∈ regions.map (fun e => e.1)) :
    (regions.filter (fun e => decide (e.1 = ch))).map (fun e => e.1) = [ch] := by
  have h1 : (regions.filter (fun e => decide (e.1 = ch))).map (fun e => e.1)
      = (regions.map (fun e => e.1)).filter (fun x => decide (x = ch)) := by
    rw [List.filter_map]; rfl
  rw [h1, List.filter_eq, List.count_eq_one_of_mem hnd hmem]
  rfl

theorem regions_tile (m : Matrix) (nr nc : Nat) (hm : IsRect m nr nc)
    (regions : List (Char × Region))
    (h : labelRegions (matrixCells m)
      (distinct ((matrixCells m).map (fun cell => cell.2.2))) = .ok regions) :
    TilesExactly m ⟨0, nr, 0, nc⟩ regions := by
  obtain ⟨hmap, hreg⟩ := labelRegions_ok _ _ _ h
  have hcells : ∀ cell ∈ matrixCells m, cell.1 < nr ∧ cell.2.1 < nc := by
    rintro ⟨r, c, ch⟩ hcell
    exact labelAt_some_bounds m nr nc hm r c ch ((mem_matrixCells m r c ch).1 hcell)
  constructor
  · intro e he
    have := boundingBox_bounds e.1 _ nr nc hcells e.2 (hreg e he).1
    simp only
    omega
  · intro r c hc
    simp only [Region.contains, Bool.and_eq_true, decide_eq_true_eq] at hc
    obtain ⟨ch, hch⟩ := labelAt_of_bounds m nr nc hm r c (by omega) (by omega)
    refine ⟨ch, hch, ?_⟩
    have hcell : (r, c, ch) ∈ matrixCells m := (mem_matrixCells m r c ch).2 hch
    have hfilter : regions.filter (fun e => e.2.contains r c)
        = regions.filter (fun e => decide (e.1 = ch)) := by
      apply List.filter_congr
      intro e he
      obtain ⟨hbox, hchk⟩ := hreg e he
      by_cases hcon : e.2.contains r c = true
      · have := hchk _ hcell hcon
        simp only at this
        simp [hcon, this]
      · have hne : e.1 ≠ ch := by
          intro heq
          obtain ⟨b, hb, hb2⟩ := boundingBox_contains ch _ r c hcell
          rw [heq, hb] at hbox
          simp only [Option.some.injEq] at hbox
          rw [hbox] at hb2
          exact hcon hb2
        simp [hcon, hne]
    rw [hfilter]
    apply filter_label_eq
    · rw [hmap]; exact nodup_distinct _
    · rw [hmap, mem_distinct]
      exact List.mem_map.2 ⟨(r, c, ch), hcell, rfl⟩

theorem prepareGraph_tiles (m : Matrix) (pane : Option Pane)
    (hm : IsRect m m.length (m.headD []).length)
    (h : PrepareGraph m = (pane, none)) :
    ∃ p, pane = some p ∧ TilesExactly m (wholeRegion m) (p.leaves (wholeRegion m)) := by
  unfold PrepareGraph at h
  simp only at h
  split at h
  · simp at h
  · rename_i regions hregions
    split at h
    · rename_i p hplan
      simp only [Prod.mk.injEq, and_true] at h
      refine ⟨p, h.symm, ?_⟩
      exact plan_tiles m _ _ _ p hplan (regions_tile m _ _ hm regions hregions)
    · simp at h
    · simp at h

/-! ## Properties of validation and parsing -/

/-- C2: on a non-nil config whose session and window slots are all non-nil,
`Config.Parse` returns nil exactly when `Window.Parse` succeeds for every
window. Otherwise there is a first window, sessions in order and windows in
order, whose `Window.Parse` returns an error `e`; for every such first
failing window `Config.Parse` returns an error whose message is
`unable to parse grid for window - <Name>: <message of e>` and whose
`Unwrap` is `e`. -/
theorem Config.Parse_error_report (pg : String → Matrix × Option GoError)
    (pgr : Matrix → Option Pane × Option GoError) (mem : Memory) (cfg : Config)
    (hs : ∀ s ∈ cfg.Sessions, s ≠ none)
    (hw : ∀ w ∈ allWindows mem cfg.Sessions, w ≠ none) :
    ((Config.Parse pg pgr mem (some cfg)).2 = .returned none ↔
        ∀ w ∈ allWindows mem cfg.Sessions, (Window.Parse pg pgr (mem.window w)).2 = none) ∧
      ((Config.Parse pg pgr mem (some cfg)).2 ≠ .returned none →
        ∃ pre a post e, allWindows mem cfg.Sessions = pre ++ some a :: post ∧
          (∀ x ∈ pre, (Window.Parse pg pgr (mem.window x)).2 = none) ∧
          (Window.Parse pg pgr (some (mem.windows a))).2 = some e) ∧
      (∀ pre a post e, allWindows mem cfg.Sessions = pre ++ some a :: post →
        (∀ x ∈ pre, (Window.Parse pg pgr (mem.window x)).2 = none) →
        (Window.Parse pg pgr (some (mem.windows a))).2 = some e →
        ∃ err, (Config.Parse pg pgr mem (some cfg)).2 = .returned (some err) ∧
          err.Error = "unable to parse grid for window - " ++ (mem.windows a).Name ++ ": "
            ++ e.Error ∧
          err.Unwrap = some e) := by
  have hres : Config.Parse pg pgr mem (some cfg)
      = parseWindows pg pgr mem (allWindows mem cfg.Sessions) := by
    simp only [Config.Parse]
    rw [parseSessions_flat pg pgr mem cfg.Sessions hs]
  rw [hres]
  refine ⟨parseWindows_returned_none_iff pg pgr mem _, ?_, ?_⟩
  · intro hne
    have hall : ¬ ∀ w ∈ allWindows mem cfg.Sessions,
        (Window.Parse pg pgr (mem.window w)).2 = none :=
      fun hc => hne ((parseWindows_returned_none_iff pg pgr mem _).2 hc)
    obtain ⟨pre, x, post, h1, h2, h3⟩ :=
      exists_first_failing (fun w => (Window.Parse pg pgr (mem.window w)).2 = none) _ hall
    cases x with
    | none => exact absurd rfl (hw none (by rw [h1]; simp))
    | some a =>
      cases he : (Window.Parse pg pgr (some (mem.windows a))).2 with
      | none => exact absurd he h3
      | some e => exact ⟨pre, a, post, e, h1, h2, he⟩
  · intro pre a post e h1 h2 h3
    rw [h1, (parseWindows_first pg pgr mem pre a post e h2 h3).1]
    exact ⟨parseError (mem.windows a) e, rfl, rfl, rfl⟩

theorem Config.Parse_error_report_witness :
    (∀ s ∈ [some 0], s ≠ (none : Option Addr)) ∧
      (∀ w ∈ allWindows
          ⟨fun _ => ⟨"dev", [some 0, some 1]⟩,
            fun a => if a = 0 then ⟨"code", "AB", none, []⟩ else ⟨"bad", "AB\nA", none, []⟩⟩
          [some 0], w ≠ none) ∧
      ∃ err, (Config.Parse PrepareGrid PrepareGraph
          ⟨fun _ => ⟨"dev", [some 0, some 1]⟩,
            fun a => if a = 0 then ⟨"code", "AB", none, []⟩ else ⟨"bad", "AB\nA", none, []⟩⟩
          (some ⟨[some 0], false, false⟩)).2 = .returned (some err) ∧
        err.Error = "unable to parse grid for window - bad: "
          ++ (GoError.planError .MalformedGrid).Error ∧
        err.Unwrap = some (.planError .MalformedGrid) :=
  ⟨by decide, by decide,
    (Config.Parse_error_report PrepareGrid PrepareGraph
      ⟨fun _ => ⟨"dev", [some 0, some 1]⟩,
        fun a => if a = 0 then ⟨"code", "AB", none, []⟩ else ⟨"bad", "AB\nA", none, []⟩⟩
      ⟨[some 0], false, false⟩ (by decide) (by decide)).2.2
      [some 0] 1 [] (.planError .MalformedGrid) (by decide) (by decide) (by decide)⟩

/-- C3: on a non-nil config whose session slots are all non-nil,
`Config.Validate` returns (it does not panic); it returns nil exactly when
there is at least one session and every session is named, has at least one
window, and holds only non-nil, named windows with a grid that is not blank.
When it returns an error, that error is the one of the first violation:
there is no session, or some session is reached after sessions that all
pass, and it has no name, or it is named and has no window, or it is named
and one of its windows is reached after windows that all pass and gives the
error of `Window.Validate`. -/
theorem Config.Validate_accepts_iff (mem : Memory) (cfg : Config)
    (hs : ∀ s ∈ cfg.Sessions, s ≠ none) :
    (Config.Validate mem (some cfg) = .returned none ↔
        cfg.Sessions ≠ [] ∧ ∀ s ∈ cfg.Sessions, SessionOk mem s) ∧
      Config.Validate mem (some cfg) ≠ .nilDeref ∧
      (∀ e, Config.Validate mem (some cfg) = .returned (some e) →
        (cfg.Sessions = [] ∧ e = .errorString "at least one session is required") ∨
        ∃ pre a post, cfg.Sessions = pre ++ some a :: post ∧ (∀ t ∈ pre, SessionOk mem t) ∧
          (((mem.sessions a).Name = "" ∧ e = .errorString "session name is required") ∨
            ((mem.sessions a).Name ≠ "" ∧ (mem.sessions a).Windows = [] ∧
              e = .errorString
                ("atleast 1 window is required for session - " ++ (mem.sessions a).Name)) ∨
            ((mem.sessions a).Name ≠ "" ∧
              ∃ wpre w wpost, (mem.sessions a).Windows = wpre ++ w :: wpost ∧
                (∀ x ∈ wpre, WindowOk (mem.window x)) ∧ ¬ WindowOk (mem.window w) ∧
                Window.Validate (mem.window w) = some e))) := by
  unfold Config.Validate
  by_cases hnil : cfg.Sessions = []
  · simp [hnil]
  · have hlen : ¬ (cfg.Sessions.length = 0) := by
      simpa [List.length_eq_zero] using hnil
    simp only [beq_iff_eq, hlen, if_false]
    refine ⟨?_, validateSessions_no_panic mem _ hs, ?_⟩
    · rw [validateSessions_returned_none_iff]
      simp [hnil]
    · intro e he
      right
      obtain ⟨pre, a, post, h1, h2, h3⟩ := validateSessions_returned_some mem _ e he
      refine ⟨pre, a, post, h1, h2, ?_⟩
      unfold sessionVerdict at h3
      by_cases hn : (mem.sessions a).Name = ""
      · simp only [hn, if_true, Option.some.injEq] at h3
        exact Or.inl ⟨hn, h3.symm⟩
      · by_cases hw : (mem.sessions a).Windows = []
        · simp only [hn, hw, if_true, if_false, Option.some.injEq] at h3
          exact Or.inr (Or.inl ⟨hn, hw, h3.symm⟩)
        · simp only [hn, hw, if_false] at h3
          obtain ⟨wpre, w, wpost, e1, e2, e3⟩ := validateWindows_some mem _ e h3
          refine Or.inr (Or.inr ⟨hn, wpre, w, wpost, e1, e2, ?_, e3⟩)
          intro hok
          rw [← windowValidate_eq_none_iff, e3] at hok
          cases hok

theorem Config.Validate_accepts_iff_witness :
    (∀ s ∈ [some 0], s ≠ (none : Option Addr)) ∧
      Config.Validate ⟨fun _ => ⟨"dev", [some 0]⟩, fun _ => ⟨"code", "AB", none, []⟩⟩
          (some ⟨[some 0], false, false⟩) = .returned none ∧
      ([some 0] ≠ ([] : List (Option Addr)) ∧
        ∀ s ∈ [some 0],
          SessionOk ⟨fun _ => ⟨"dev", [some 0]⟩, fun _ => ⟨"code", "AB", none, []⟩⟩ s) :=
  ⟨by decide, by decide,
    (Config.Validate_accepts_iff
      ⟨fun _ => ⟨"dev", [some 0]⟩, fun _ => ⟨"code", "AB", none, []⟩⟩
      ⟨[some 0], false, false⟩ (by decide)).1.1 (by decide)⟩

/-- C4: on a non-nil window `Window.Parse` keeps the window non-nil and
leaves `Name`, `Grid` and `Commands` as they were, whatever it returns. When
`PrepareGrid` and `PrepareGraph` both succeed it returns nil and the only
change is that `FirstPane` is the pane `PrepareGraph` returned for the grid
`PrepareGrid` returned. When `PrepareGrid` fails, or `PrepareGraph` fails
after it, the window is left as it was, `FirstPane` included, and that very
error is returned. -/
theorem Window.Parse_frame (pg : String → Matrix × Option GoError)
    (pgr : Matrix → Option Pane × Option GoError) (win : Window) :
    (∃ w1, (Window.Parse pg pgr (some win)).1 = some w1 ∧ w1.Name = win.Name ∧
        w1.Grid = win.Grid ∧ w1.Commands = win.Commands) ∧
      ((pg win.Grid).2 = none → (pgr (pg win.Grid).1).2 = none →
        Window.Parse pg pgr (some win) =
          (some { win with FirstPane := (pgr (pg win.Grid).1).1 }, none)) ∧
      (∀ e, (pg win.Grid).2 = some e →
        Window.Parse pg pgr (some win) = (some win, some e)) ∧
      (∀ e, (pg win.Grid).2 = none → (pgr (pg win.Grid).1).2 = some e →
        Window.Parse pg pgr (some win) = (some win, some e)) := by
  refine ⟨?_, windowParse_success pg pgr win, windowParse_grid_fail pg pgr win,
    windowParse_graph_fail pg pgr win⟩
  cases h1 : (pg win.Grid).2 with
  | some e1 =>
    rw [windowParse_grid_fail pg pgr win e1 h1]
    exact ⟨win, rfl, rfl, rfl, rfl⟩
  | none =>
    cases h2 : (pgr (pg win.Grid).1).2 with
    | some e2 =>
      rw [windowParse_graph_fail pg pgr win e2 h1 h2]
      exact ⟨win, rfl, rfl, rfl, rfl⟩
    | none =>
      rw [windowParse_success pg pgr win h1 h2]
      exact ⟨_, rfl, rfl, rfl, rfl⟩

/-- C5: `Window.Validate` reports an empty grid with the window name. For a
non-nil window with a non-empty `Name` it returns an error exactly when the
grid is empty or holds only white space, which is exactly when
`strings.TrimSpace` leaves nothing, and the message is then
`grid for window, <Name>, is empty`. A nil window gives `window is nil` and an
empty `Name` gives `window name is required`, whatever the grid is. -/
theorem Window.Validate_report (win : Window) (hname : win.Name ≠ "") :
    ((∃ e, Window.Validate (some win) = some e) ↔
        (win.Grid = "" ∨ ∀ c ∈ win.Grid.data, unicodeIsSpace c = true)) ∧
      ((∃ e, Window.Validate (some win) = some e) ↔ stringsTrimSpace win.Grid = "") ∧
      (∀ e, Window.Validate (some win) = some e →
        e.Error = "grid for window, " ++ win.Name ++ ", is empty") ∧
      (Window.Validate none).map GoError.Error = some "window is nil" ∧
      (∀ grid pane commands, (Window.Validate (some ⟨"", grid, pane, commands⟩)).map GoError.Error
        = some "window name is required") := by
  have hblank : (win.Grid = "" ∨ ∀ c ∈ win.Grid.data, unicodeIsSpace c = true) ↔
      ∀ c ∈ win.Grid.data, unicodeIsSpace c = true := by
    constructor
    · rintro (h | h)
      · rw [h]; simp
      · exact h
    · exact Or.inr
  have htrim : stringsTrimSpace win.Grid = "" ↔
      ∀ c ∈ win.Grid.data, unicodeIsSpace c = true := by
    rw [← len_eq_zero_iff, len_trimSpace_eq_zero_iff]
  rw [hblank, htrim, windowValidate_some]
  simp only [hname, if_false]
  refine ⟨?_, ?_, ?_, rfl, ?_⟩
  · by_cases hb : ∀ c ∈ win.Grid.data, unicodeIsSpace c = true
    · rw [if_pos hb]
      exact ⟨fun _ => hb, fun _ => ⟨_, rfl⟩⟩
    · rw [if_neg hb]
      exact ⟨fun ⟨_, he⟩ => Option.noConfusion he, fun h => absurd h hb⟩
  · by_cases hb : ∀ c ∈ win.Grid.data, unicodeIsSpace c = true
    · rw [if_pos hb]
      exact ⟨fun _ => hb, fun _ => ⟨_, rfl⟩⟩
    · rw [if_neg hb]
      exact ⟨fun ⟨_, he⟩ => Option.noConfusion he, fun h => absurd h hb⟩
  · intro e he
    by_cases hb : ∀ c ∈ win.Grid.data, unicodeIsSpace c = true
    · rw [if_pos hb] at he
      simp only [Option.some.injEq] at he
      rw [← he]; rfl
    · rw [if_neg hb] at he
      cases he
  · intro grid pane commands
    rfl

theorem Window.Validate_report_witness :
    (⟨"logs", " \t\n", none, []⟩ : Window).Name ≠ "" ∧
      ((∃ e, Window.Validate (some ⟨"logs", " \t\n", none, []⟩) = some e) ↔
        stringsTrimSpace " \t\n" = "") ∧
      ∀ e, Window.Validate (some ⟨"logs", " \t\n", none, []⟩) = some e →
        e.Error = "grid for window, logs, is empty" :=
  ⟨by decide,
    (Window.Validate_report ⟨"logs", " \t\n", none, []⟩ (by decide)).2.1,
    (Window.Validate_report ⟨"logs", " \t\n", none, []⟩ (by decide)).2.2.1⟩

/-- C6 (counterexample): a config whose session `main` holds one nil
window. `Config.Validate` rejects it because of that window, with the
message `window is nil`; the window has no name, and the message does not
contain the name `main` of the session that holds it. -/
theorem Config.Validate_nil_window_message_names_nothing :
    Config.Validate ⟨fun _ => ⟨"main", [none]⟩, fun _ => ⟨"code", "AB", none, []⟩⟩
          (some ⟨[some 0], false, false⟩)
        = .returned (some (.errorString "window is nil")) ∧
      ¬ Contains (GoError.Error (.errorString "window is nil")) "main" := by
  refine ⟨rfl, ?_⟩
  rintro ⟨front, back, h⟩
  have hm : 'm' ∈ (GoError.Error (.errorString "window is nil")).data := by
    rw [h]
    simp
  revert hm
  decide

/-- C6 (amended): when `Config.Validate` reaches, after sessions that all
pass, a session with a non-empty `Name`, then: if that session has no
windows, the error message contains the session's `Name`; if one of its
windows, reached after windows that all pass, does not pass, the message is
`window is nil` for a nil window, `window name is required` for a window
without a name, and contains the window's `Name` for a named window, whose
grid is then blank. -/
theorem Config.Validate_message_context (mem : Memory) (cfg : Config)
    (pre : List (Option Addr)) (a : Addr) (post : List (Option Addr))
    (hsplit : cfg.Sessions = pre ++ some a :: post) (hpre : ∀ t ∈ pre, SessionOk mem t)
    (hname : (mem.sessions a).Name ≠ "") :
    ((mem.sessions a).Windows = [] →
        ∃ e, Config.Validate mem (some cfg) = .returned (some e) ∧
          Contains e.Error (mem.sessions a).Name) ∧
      (∀ wpre w wpost, (mem.sessions a).Windows = wpre ++ w :: wpost →
        (∀ x ∈ wpre, WindowOk (mem.window x)) → ¬ WindowOk (mem.window w) →
        ∃ e, Config.Validate mem (some cfg) = .returned (some e) ∧
          ((w = none ∧ e.Error = "window is nil") ∨
            (∃ b, w = some b ∧ (mem.windows b).Name = "" ∧
              e.Error = "window name is required") ∨
            (∃ b, w = some b ∧ (mem.windows b).Name ≠ "" ∧
              ¬ HasNonSpace (mem.windows b).Grid ∧
              Contains e.Error (mem.windows b).Name))) := by
  have hval : Config.Validate mem (some cfg) = validateSessions mem cfg.Sessions := by
    unfold Config.Validate
    have hlen : ¬ (cfg.Sessions.length = 0) := by
      rw [hsplit]; simp
    simp only [beq_iff_eq, hlen, if_false]
  rw [hval, hsplit]
  constructor
  · intro hw
    refine ⟨.errorString
        ("atleast 1 window is required for session - " ++ (mem.sessions a).Name),
      validateSessions_first mem pre a post _ hpre ?_, contains_append_right _ _⟩
    simp [sessionVerdict, hname, hw]
  · intro wpre w wpost hw hwpre hbad
    have hne : (mem.sessions a).Windows ≠ [] := by rw [hw]; simp
    have hverdict : ∀ e, Window.Validate (mem.window w) = some e →
        sessionVerdict mem (mem.sessions a) = some e := by
      intro e he
      simp only [sessionVerdict, hname, hne, if_false]
      rw [hw]
      exact validateWindows_first mem wpre w wpost e hwpre he
    cases w with
    | none =>
      exact ⟨_, validateSessions_first mem pre a post _ hpre (hverdict _ rfl),
        Or.inl ⟨rfl, rfl⟩⟩
    | some b =>
      have hv := windowValidate_some (mem.windows b)
      by_cases hn : (mem.windows b).Name = ""
      · rw [if_pos hn] at hv
        exact ⟨_, validateSessions_first mem pre a post _ hpre (hverdict _ hv),
          Or.inr (Or.inl ⟨b, rfl, hn, rfl⟩)⟩
      · have hblank : ¬ HasNonSpace (mem.windows b).Grid :=
          fun hg => hbad ⟨mem.windows b, rfl, hn, hg⟩
        rw [if_neg hn, if_pos ((not_hasNonSpace_iff _).1 hblank)] at hv
        exact ⟨_, validateSessions_first mem pre a post _ hpre (hverdict _ hv),
          Or.inr (Or.inr ⟨b, rfl, hn, hblank, contains_append _ _ _⟩)⟩

theorem Config.Validate_message_context_witness :
    ([some 0] = [] ++ some 0 :: ([] : List (Option Addr))) ∧
      (∀ t ∈ ([] : List (Option Addr)),
        SessionOk ⟨fun _ => ⟨"main", []⟩, fun _ => ⟨"code", "AB", none, []⟩⟩ t) ∧
      (⟨"main", []⟩ : Session).Name ≠ "" ∧
      ∃ e, Config.Validate ⟨fun _ => ⟨"main", []⟩, fun _ => ⟨"code", "AB", none, []⟩⟩
          (some ⟨[some 0], false, false⟩) = .returned (some e) ∧
        Contains e.Error "main" :=
  ⟨rfl, by simp, by decide,
    (Config.Validate_message_context
      ⟨fun _ => ⟨"main", []⟩, fun _ => ⟨"code", "AB", none, []⟩⟩
      ⟨[some 0], false, false⟩ [] 0 [] rfl (by simp) (by decide)).1 rfl⟩

/-- C7: for every grid text that `Window.Parse` accepts, the matrix that
`PrepareGrid` gives is rectangular, `FirstPane` holds the pane graph that
`PrepareGraph` builds from it, and the leaves of that graph, laid out from
the region of the whole matrix, tile the matrix exactly: every leaf lies
inside the matrix, and every cell of the matrix is covered by exactly one
leaf, which carries the label of the cell. The planner does not run out of
fuel on that matrix, whatever labelled regions it is given. -/
theorem Window.Parse_leaves_tile (win : Window)
    (h : (Window.Parse PrepareGrid PrepareGraph (some win)).2 = none) :
    ∃ m pane, PrepareGrid win.Grid = (m, none) ∧ PrepareGraph m = (some pane, none) ∧
      (∃ w1, (Window.Parse PrepareGrid PrepareGraph (some win)).1 = some w1 ∧
        w1.FirstPane = some pane) ∧
      IsRect m m.length (m.headD []).length ∧
      TilesExactly m (wholeRegion m) (pane.leaves (wholeRegion m)) ∧
      ∀ regions, plan (m.length + (m.headD []).length + 1) (wholeRegion m) regions ≠ none := by
  cases h1 : (PrepareGrid win.Grid).2 with
  | some e1 =>
    rw [windowParse_grid_fail PrepareGrid PrepareGraph win e1 h1] at h
    cases h
  | none =>
    cases h2 : (PrepareGraph (PrepareGrid win.Grid).1).2 with
    | some e2 =>
      rw [windowParse_graph_fail PrepareGrid PrepareGraph win e2 h1 h2] at h
      cases h
    | none =>
      have hgrid : PrepareGrid win.Grid = ((PrepareGrid win.Grid).1, none) := by
        rw [← h1]
      have hgraph : PrepareGraph (PrepareGrid win.Grid).1
          = ((PrepareGraph (PrepareGrid win.Grid).1).1, none) := by
        rw [← h2]
      have hrect := prepareGrid_rect win.Grid _ hgrid
      obtain ⟨p, hp, htiles⟩ := prepareGraph_tiles _ _ hrect hgraph
      refine ⟨(PrepareGrid win.Grid).1, p, hgrid, ?_, ?_, hrect, htiles, ?_⟩
      · rw [hgraph, hp]
      · rw [windowParse_success PrepareGrid PrepareGraph win h1 h2]
        exact ⟨_, rfl, hp⟩
      · intro regions
        apply plan_fuel_enough
        simp only [wholeRegion]
        omega

theorem Window.Parse_leaves_tile_witness :
    (Window.Parse PrepareGrid PrepareGraph (some ⟨"code", "AAB\nAAB\nCCC", none, []⟩)).2
        = none ∧
      ∃ m pane, PrepareGrid "AAB\nAAB\nCCC" = (m, none) ∧
        PrepareGraph m = (some pane, none) ∧
        TilesExactly m (wholeRegion m) (pane.leaves (wholeRegion m)) :=
  ⟨by decide,
    match Window.Parse_leaves_tile ⟨"code", "AAB\nAAB\nCCC", none, []⟩ (by decide) with
    | ⟨m, pane, h1, h2, _, _, h3, _⟩ => ⟨m, pane, h1, h2, h3⟩⟩

/-- C8 (the code at the failing input): `Config.Parse` on a non-nil config
with one non-nil session whose only window slot is nil does not return.
`Window.Parse` gives its `window is nil` error, and `Config.Parse` then reads
`window.Name` through the nil pointer to build the wrapped error, which
panics; the memory is left as it was. -/
theorem Config.Parse_nil_window_panics (pg : String → Matrix × Option GoError)
    (pgr : Matrix → Option Pane × Option GoError) (mem : Memory) :
    Window.Parse pg pgr none = (none, some (.errorString "window is nil")) ∧
      Config.Parse pg pgr ⟨fun _ => ⟨"dev", [none]⟩, mem.windows⟩
          (some ⟨[some 0], false, false⟩)
        = (⟨fun _ => ⟨"dev", [none]⟩, mem.windows⟩, .nilDeref) :=
  ⟨rfl, rfl⟩

/-- C9 (the code at the failing input): `Config.Validate` guards a nil config
and `Window.Validate` guards a nil window, each with an error of its own; but
on a config whose only session slot is nil, `Config.Validate` reads
`session.Name` through the nil pointer and panics: it returns neither nil nor
an error. -/
theorem Config.Validate_nil_session_panics (mem : Memory) :
    Config.Validate mem none = .returned (some (.errorString "config is nil")) ∧
      Config.Validate ⟨fun _ => ⟨"dev", [none]⟩, mem.windows⟩
          (some ⟨[some 0], false, false⟩)
        = .returned (some (.errorString "window is nil")) ∧
      Config.Validate mem (some ⟨[none], false, false⟩) = .nilDeref :=
  ⟨rfl, rfl, rfl⟩

/-- C10: when `Config.Validate` returns nil, the config is non-nil, every
session slot and every window slot is non-nil, and every window's grid has a
character that is not white space. `Config.Parse` on that config then
returns (it reads through no nil pointer), and any error it returns wraps an
error that `PrepareGrid` or `PrepareGraph` gave for the grid of a window of
the config, not the `window is nil` error of `Window.Parse`. -/
theorem Config.Validate_establishes_parse_precondition (mem : Memory) (c : Option Config)
    (pg : String → Matrix × Option GoError) (pgr : Matrix → Option Pane × Option GoError)
    (h : Config.Validate mem c = .returned none) :
    ∃ cfg, c = some cfg ∧ (∀ s ∈ cfg.Sessions, s ≠ none) ∧
      (∀ w ∈ allWindows mem cfg.Sessions,
        ∃ a, w = some a ∧ HasNonSpace (mem.windows a).Grid) ∧
      (Config.Parse pg pgr mem c).2 ≠ .nilDeref ∧
      (∀ e, (Config.Parse pg pgr mem c).2 = .returned (some e) →
        ∃ a inner, some a ∈ allWindows mem cfg.Sessions ∧
          e = parseError (mem.windows a) inner ∧
          ((pg (mem.windows a).Grid).2 = some inner ∨
            ((pg (mem.windows a).Grid).2 = none ∧
              (pgr (pg (mem.windows a).Grid).1).2 = some inner))) := by
  cases c with
  | none => simp [Config.Validate] at h
  | some cfg =>
    have hss : validateSessions mem cfg.Sessions = .returned none := by
      unfold Config.Validate at h
      by_cases hlen : cfg.Sessions.length = 0
      · simp [hlen] at h
      · simpa [hlen] using h
    have hok := (validateSessions_returned_none_iff mem cfg.Sessions).1 hss
    have hs : ∀ s ∈ cfg.Sessions, s ≠ none := by
      intro s hsm hnone
      obtain ⟨a, ha, _⟩ := hok s hsm
      rw [hnone] at ha
      cases ha
    have hwin : ∀ w ∈ allWindows mem cfg.Sessions,
        ∃ a, w = some a ∧ HasNonSpace (mem.windows a).Grid := by
      intro w hwm
      obtain ⟨sa, hsa, hmem⟩ := (mem_allWindows _ _ _).1 hwm
      obtain ⟨t, ht, _, _, hall⟩ := hok _ hsa
      simp only [Option.some.injEq] at ht
      subst ht
      obtain ⟨win, e1, _, e3⟩ := hall w hmem
      cases w with
      | none => simp [Memory.window] at e1
      | some a =>
        simp only [Memory.window, Option.map_some', Option.some.injEq] at e1
        subst e1
        exact ⟨a, rfl, e3⟩
    have hnn : ∀ w ∈ allWindows mem cfg.Sessions, w ≠ none := by
      intro w hwm hnone
      obtain ⟨a, e1, _⟩ := hwin w hwm
      rw [hnone] at e1
      cases e1
    have hres : Config.Parse pg pgr mem (some cfg)
        = parseWindows pg pgr mem (allWindows mem cfg.Sessions) := by
      simp only [Config.Parse]
      rw [parseSessions_flat pg pgr mem cfg.Sessions hs]
    refine ⟨cfg, rfl, hs, hwin, ?_, ?_⟩
    · rw [hres]
      exact parseWindows_no_panic pg pgr mem _ hnn
    · intro e he
      rw [hres] at he
      have hall : ¬ ∀ w ∈ allWindows mem cfg.Sessions,
          (Window.Parse pg pgr (mem.window w)).2 = none := by
        intro hc
        rw [(parseWindows_returned_none_iff pg pgr mem _).2 hc] at he
        cases he
      obtain ⟨pre, x, post, h1, h2, h3⟩ :=
        exists_first_failing (fun w => (Window.Parse pg pgr (mem.window w)).2 = none) _ hall
      cases x with
      | none => exact absurd rfl (hnn none (by rw [h1]; simp))
      | some a =>
        cases hin : (Window.Parse pg pgr (some (mem.windows a))).2 with
        | none => exact absurd hin h3
        | some inner =>
          rw [h1, (parseWindows_first pg pgr mem pre a post inner h2 hin).1] at he
          simp only [Outcome.returned.injEq, Option.some.injEq] at he
          exact ⟨a, inner, by rw [h1]; simp, he.symm,
            windowParse_error_source pg pgr _ inner hin⟩

theorem Config.Validate_establishes_parse_precondition_witness :
    Config.Validate ⟨fun _ => ⟨"dev", [some 0]⟩, fun _ => ⟨"code", "AB", none, []⟩⟩
        (some ⟨[some 0], false, false⟩) = .returned none ∧
      (Config.Parse PrepareGrid PrepareGraph
        ⟨fun _ => ⟨"dev", [some 0]⟩, fun _ => ⟨"code", "AB", none, []⟩⟩
        (some ⟨[some 0], false, false⟩)).2 ≠ .nilDeref :=
  ⟨by decide,
    match Config.Validate_establishes_parse_precondition
      ⟨fun _ => ⟨"dev", [some 0]⟩, fun _ => ⟨"code", "AB", none, []⟩⟩
      (some ⟨[some 0], false, false⟩) PrepareGrid PrepareGraph (by decide) with
    | ⟨_, _, _, _, h, _⟩ => h⟩

end Chaakoo
